import Mathlib

/-!
Shallow embedding of the treemap heat-map layout engine of
`src/components/heatmap.js` (the variant whose line numbers the analysis
refers to): tile normalization (`draw`, lines 117-125), the squarified
partitioner (`computeSquarifyTreemap`), the crypto partitioner with its
pinned-top strip and priority-flip governor (`computeCryptoTreemap`), the
content-fit scale (`draw`, lines 158-169), and the resize-stability
scheduler (`draw`, lines 83-110).

Numbers are modelled by exact rationals `ℚ` (JavaScript numbers are binary
floats; every claim below is stated and settled in the exact-arithmetic
model, where the float statements "within epsilon" become exact equalities).
The content-fit scale uses `Math.sqrt` and is modelled over `ℝ`.
Rectangles are half-open boxes `[x, x+w) × [y, y+h)`, so "no gaps, no
overlap" is an exact partition statement.
-/

namespace Heatmap

/-- A raw `marketCap` field as JavaScript sees it: a finite number, `NaN`
(which has `typeof === 'number'` but compares false), or any non-number
value (missing, string, null, ...). -/
inductive CapVal where
  | num (q : ℚ)
  | nan
  | other
deriving DecidableEq, Repr

/-- One raw input record (a member of the `tiles` array). Only the fields
the layout core reads are modelled. -/
structure Tile where
  symbol : String
  marketCap : CapVal
deriving DecidableEq, Repr

/-- A weighted node, as built by `draw` lines 117-123: `{ tile, weight }`. -/
structure Node where
  tile : Tile
  weight : ℚ
deriving DecidableEq, Repr

/-- An item of the partitioners: `{ tile, area }` with the tile's allocated
pixel area. -/
structure Item where
  tile : Tile
  area : ℚ
deriving DecidableEq, Repr

/-- An axis-aligned rectangle `{ x, y, w, h }`. -/
structure Rect where
  x : ℚ
  y : ℚ
  w : ℚ
  h : ℚ
deriving DecidableEq, Repr

/-- An emitted rect `{ tile, x, y, w, h }` (an element of `rectsPx` and of
the final normalized output). -/
structure PRect where
  tile : Tile
  x : ℚ
  y : ℚ
  w : ℚ
  h : ℚ
deriving DecidableEq, Repr

def PRect.toRect (r : PRect) : Rect := ⟨r.x, r.y, r.w, r.h⟩

/-- Caller options, as read by `getRenderConfig` (`mode` is dispatched
before the functions modelled here and is omitted; `minPriorityTextScale`
is `none` when absent or not a number). -/
structure RenderOptions where
  prioritySymbols : List String
  forceTopFullWidthSymbol : Option String
  minPriorityTextScale : Option ℚ
deriving DecidableEq, Repr

/-- The render config produced by `getRenderConfig` (lines 238-270). The
baseline content dimensions come from DOM measurement or from the default
constants and are inputs here. -/
structure Cfg where
  prioritySymbols : List String
  forceTopFullWidthSymbol : Option String
  baseContentHeightPx : ℚ
  baseContentWidthPx : ℚ
  minPriorityTextScale : ℚ
  minPriorityStripHeightPx : ℚ
  minPriorityStripWidthPx : ℚ
deriving DecidableEq, Repr

def DEFAULT_BASE_CONTENT_HEIGHT_PX : ℚ := 46
def DEFAULT_BASE_CONTENT_WIDTH_PX : ℚ := 70
def DEFAULT_MIN_PRIORITY_TEXT_SCALE : ℚ := 78/100

/-- `getRenderConfig(container, state, options)` without the DOM probe:
`baseH`/`baseW` stand for the cached measured (or default) baseline
content size. -/
def getRenderConfig (opts : RenderOptions) (baseH baseW : ℚ) : Cfg :=
  let minScale : ℚ :=
    match opts.minPriorityTextScale with
    | some v => if 0 < v ∧ v ≤ 1 then v else DEFAULT_MIN_PRIORITY_TEXT_SCALE
    | none => DEFAULT_MIN_PRIORITY_TEXT_SCALE
  { prioritySymbols := opts.prioritySymbols.map (fun s => s.toUpper)
    forceTopFullWidthSymbol := opts.forceTopFullWidthSymbol.map (fun s => s.toUpper)
    baseContentHeightPx := baseH
    baseContentWidthPx := baseW
    minPriorityTextScale := minScale
    minPriorityStripHeightPx := baseH * minScale
    minPriorityStripWidthPx := baseW * minScale }

/-! ## TileModel: `draw` lines 117-125 -/

/-- `typeof t.marketCap === 'number' && t.marketCap > 0 ? t.marketCap : 1`
(`NaN` has `typeof 'number'` but `NaN > 0` is false). -/
def normalizedCap : CapVal → ℚ
  | .num q => if 0 < q then q else 1
  | .nan => 1
  | .other => 1

/-- `tiles.map(t => ({tile: t, weight: cap})).filter(n => n && typeof
n.weight === 'number' && n.weight > 0)`. -/
def toNodes (tiles : List Tile) : List Node :=
  (tiles.map (fun t => { tile := t, weight := normalizedCap t.marketCap })).filter
    (fun n => 0 < n.weight)

/-! ## Shared partitioner pieces -/

/-- `arr.reduce((s, it) => s + it.area, 0)`. -/
def sumArea (arr : List Item) : ℚ := arr.foldl (fun s it => s + it.area) 0

/-- `nodes.reduce((s, n) => s + (n.weight || 0), 0)` (a rational weight is
used as-is; `||` only replaces the absent field, which `Node` cannot have). -/
def sumWeight (nodes : List Node) : ℚ := nodes.foldl (fun s n => s + n.weight) 0

/-- The `worst` aspect heuristic. The source folds `min` from `Infinity`
and `max` from `0`; for a nonempty list the `min` fold from `Infinity`
equals the fold over the tail started from the head's area, written so
here. For `[]` the source returns `Infinity`; every call site passes a
nonempty strip, and `0` stands in for that unreachable case. -/
def worst (arr : List Item) (side : ℚ) : ℚ :=
  match arr with
  | [] => 0
  | it :: rest =>
      let s := sumArea (it :: rest)
      let mn := rest.foldl (fun m x => if x.area < m then x.area else m) it.area
      let mx := (it :: rest).foldl (fun m x => if m < x.area then x.area else m) 0
      let s2 := s * s
      let side2 := side * side
      max ((side2 * mx) / s2) (s2 / (side2 * mn))

/-- Stable insertion for the descending sort: `n` goes in front of the
first element it strictly outweighs, after all earlier equals. -/
def insertWeightDesc (n : Node) : List Node → List Node
  | [] => [n]
  | m :: ms => if m.weight < n.weight then n :: m :: ms else m :: insertWeightDesc n ms

/-- `[...nodes].sort((a, b) => b.weight - a.weight)`: a stable descending
sort (ECMAScript sort is stable), modelled by stable insertion. -/
def sortByWeightDesc (nodes : List Node) : List Node :=
  nodes.foldl (fun acc n => insertWeightDesc n acc) []

/-- `sorted.map(n => ({tile: n.tile, area: (n.weight / totalWeight) * totalArea}))`,
with `totalWeight` computed on the unsorted input as in the source. -/
def weightedItems (nodes : List Node) (W H : ℚ) : List Item :=
  (sortByWeightDesc nodes).map
    (fun n => { tile := n.tile, area := n.weight / sumWeight nodes * (W * H) })

/-- The inner placement loop of a horizontal strip: items laid left to
right at height `stripH`, the last item taking `max 0 (xEnd - x)`
(`i === arr.length - 1` in the source). -/
def placeH : List Item → ℚ → ℚ → ℚ → ℚ → List PRect
  | [], _, _, _, _ => []
  | [it], x, y, stripH, xEnd =>
      [{ tile := it.tile, x := x, y := y, w := max 0 (xEnd - x), h := stripH }]
  | it :: it' :: rest, x, y, stripH, xEnd =>
      { tile := it.tile, x := x, y := y, w := it.area / stripH, h := stripH }
        :: placeH (it' :: rest) (x + it.area / stripH) y stripH xEnd

/-- The inner placement loop of a vertical strip (column), top to bottom at
width `stripW`, the last item taking `max 0 (yEnd - y)`. -/
def placeV : List Item → ℚ → ℚ → ℚ → ℚ → List PRect
  | [], _, _, _, _ => []
  | [it], x, y, stripW, yEnd =>
      [{ tile := it.tile, x := x, y := y, w := stripW, h := max 0 (yEnd - y) }]
  | it :: it' :: rest, x, y, stripW, yEnd =>
      { tile := it.tile, x := x, y := y, w := stripW, h := it.area / stripW }
        :: placeV (it' :: rest) x (y + it.area / stripW) stripW yEnd

/-- `layoutStrip(strip, rectLocal, horizontal)` (crypto, lines 531-568) and
equally the body of the squarify `layoutRow` (lines 357-388), which inlines
the same guard, placement loop and shrink. Returns the emitted rects and
the shrunken remaining region. -/
def layoutStrip (strip : List Item) (r : Rect) (horizontal : Bool) : List PRect × Rect :=
  let s := sumArea strip
  if s ≤ 0 ∨ r.w ≤ 0 ∨ r.h ≤ 0 then ([], r)
  else if horizontal then
    let stripH := s / r.w
    (placeH strip r.x r.y stripH (r.x + r.w),
     { x := r.x, y := r.y + stripH, w := r.w, h := max 0 (r.h - stripH) })
  else
    let stripW := s / r.h
    (placeV strip r.x r.y stripW (r.y + r.h),
     { x := r.x + stripW, y := r.y, w := max 0 (r.w - stripW), h := r.h })

/-- `rectsPx.map(r => ({tile: r.tile, x: r.x/containerW, ...}))`. -/
def normalizeRects (rs : List PRect) (W H : ℚ) : List PRect :=
  rs.map (fun r => { tile := r.tile, x := r.x / W, y := r.y / H, w := r.w / W, h := r.h / H })

/-! ## Squarify partitioner (`computeSquarifyTreemap`, lines 324-421) -/

/-- `layoutRow(arr)` of the squarify loop: orientation
`firstStrip || rect.w >= rect.h`; on the degenerate guard the source
returns early and in particular leaves `firstStrip` unchanged. -/
def layoutRowS (row : List Item) (rect : Rect) (firstStrip : Bool) :
    List PRect × Rect × Bool :=
  if sumArea row ≤ 0 ∨ rect.w ≤ 0 ∨ rect.h ≤ 0 then ([], rect, firstStrip)
  else
    let out := layoutStrip row rect (firstStrip || decide (rect.h ≤ rect.w))
    (out.1, out.2, false)

/-- The greedy `while (i < items.length)` loop of `computeSquarifyTreemap`
(lines 390-412). When the candidate worsens the strip the source flushes
the row and retries the same item with the now-empty row, which
deterministically pushes it; the flush and that push are fused into one
step here so the recursion is structural. -/
def squarifyLoop : List Item → List Item → Rect → Bool → List PRect
  | [], row, rect, firstStrip =>
      if row.isEmpty then [] else (layoutRowS row rect firstStrip).1
  | it :: rest, row, rect, firstStrip =>
      if row.isEmpty then squarifyLoop rest [it] rect firstStrip
      else
        let side := min rect.w rect.h
        if worst (row ++ [it]) side ≤ worst row side then
          squarifyLoop rest (row ++ [it]) rect firstStrip
        else
          let res := layoutRowS row rect firstStrip
          res.1 ++ squarifyLoop rest [it] res.2.1 res.2.2

/-- `computeSquarifyTreemap` up to (but not including) the final
normalization: the `rectsPx` list. -/
def squarifyRectsPx (nodes : List Node) (W H : ℚ) (forceFirstStripHorizontal : Bool) :
    List PRect :=
  if nodes = [] ∨ sumWeight nodes ≤ 0 then []
  else squarifyLoop (weightedItems nodes W H) [] ⟨0, 0, W, H⟩ forceFirstStripHorizontal

/-- `computeSquarifyTreemap(nodes, containerW, containerH, opts)`: the
normalized `[0,1]` output. -/
def computeSquarifyTreemap (nodes : List Node) (W H : ℚ)
    (forceFirstStripHorizontal : Bool) : List PRect :=
  normalizeRects (squarifyRectsPx nodes W H forceFirstStripHorizontal) W H

/-! ## Crypto partitioner (`computeCryptoTreemap`, lines 434-616) -/

/-- `arr.some(it => cfg.prioritySymbols.has(String(it.tile?.symbol ||
'').toUpperCase()))`. -/
def stripHasPriority (cfg : Cfg) (arr : List Item) : Bool :=
  arr.any (fun it => cfg.prioritySymbols.contains it.tile.symbol.toUpper)

/-- The crypto base orientation: `let horizontal = rect.h >= rect.w`. -/
def baseHorizontal (rect : Rect) : Bool := decide (rect.w ≤ rect.h)

/-- The priority thin-strip governor (lines 585-601): one flip decision per
strip, comparing the strip's would-be thickness under the base orientation
against the configured minimum. -/
def chooseHorizontal (cfg : Cfg) (strip : List Item) (rect : Rect) : Bool :=
  if baseHorizontal rect then
    if stripHasPriority cfg strip && decide (sumArea strip / rect.w < cfg.minPriorityStripHeightPx)
    then false else true
  else
    if stripHasPriority cfg strip && decide (sumArea strip / rect.h < cfg.minPriorityStripWidthPx)
    then true else false

/-- The greedy growth of `buildStrip` past its first item. -/
def buildStripGo (side : ℚ) : List Item → List Item → List Item
  | strip, [] => strip
  | strip, it :: rest =>
      if worst (strip ++ [it]) side ≤ worst strip side then
        buildStripGo side (strip ++ [it]) rest
      else strip

/-- `buildStrip(remaining, side)` (lines 509-529). -/
def buildStrip (remaining : List Item) (side : ℚ) : List Item :=
  match remaining with
  | [] => []
  | it :: rest => buildStripGo side [it] rest

/-- The crypto `while (remaining.length && rect.w > 0 && rect.h > 0 &&
safeGuard < 300)` loop (lines 570-607). `fuel` is `300 - safeGuard`, so the
guard `safeGuard < 300` is `fuel > 0`; the trailing `if (rect.w <= 0 ||
rect.h <= 0) break` is the next iteration's test and needs no separate
case. -/
def cryptoLoop (cfg : Cfg) : Nat → List Item → Rect → List PRect
  | 0, _, _ => []
  | _ + 1, [], _ => []
  | fuel + 1, it :: rest, rect =>
      if rect.w ≤ 0 ∨ rect.h ≤ 0 then []
      else
        let remaining := it :: rest
        let side := min rect.w rect.h
        let strip₀ := buildStrip remaining side
        let strip := if strip₀.isEmpty then [it] else strip₀
        let horizontal := chooseHorizontal cfg strip rect
        let out := layoutStrip strip rect horizontal
        out.1 ++ cryptoLoop cfg fuel (remaining.drop strip.length) out.2

/-- The pinned-top extraction: `items.findIndex(...)` followed by
`[...items.slice(0, idx), ...items.slice(idx + 1)]`, i.e. remove the first
item whose upper-cased symbol equals the pinned symbol. -/
def extractPinned (s : String) : List Item → Option (Item × List Item)
  | [] => none
  | it :: rest =>
      if it.tile.symbol.toUpper = s then some (it, rest)
      else
        match extractPinned s rest with
        | some (b, rest') => some (b, it :: rest')
        | none => none

/-- `computeCryptoTreemap` up to the final normalization: the `rectsPx`
list, including the forced full-width pinned strip (lines 452-477) and the
early return when the remaining region or item list is empty (line 479). -/
def cryptoRectsPx (nodes : List Node) (W H : ℚ) (cfg : Cfg) : List PRect :=
  if nodes = [] ∨ sumWeight nodes ≤ 0 then []
  else
    let items := weightedItems nodes W H
    let rect0 : Rect := ⟨0, 0, W, H⟩
    let step : List Item × Rect × List PRect :=
      match cfg.forceTopFullWidthSymbol with
      | none => (items, rect0, [])
      | some s =>
          match extractPinned s items with
          | none => (items, rect0, [])
          | some (btc, items') =>
              let btcH := if 0 < rect0.w then min rect0.h (btc.area / rect0.w) else rect0.h
              (items',
               ⟨rect0.x, rect0.y + btcH, rect0.w, max 0 (rect0.h - btcH)⟩,
               [{ tile := btc.tile, x := rect0.x, y := rect0.y, w := rect0.w, h := btcH }])
    let items' := step.1
    let rect1 := step.2.1
    let pinned := step.2.2
    if rect1.w ≤ 0 ∨ rect1.h ≤ 0 ∨ items' = [] then pinned
    else pinned ++ cryptoLoop cfg 300 items' rect1

/-- `computeCryptoTreemap(nodes, containerW, containerH, cfg)`. -/
def computeCryptoTreemap (nodes : List Node) (W H : ℚ) (cfg : Cfg) : List PRect :=
  normalizeRects (cryptoRectsPx nodes W H cfg) W H

/-! ## Geometry predicates for the partition statements -/

/-- Membership in the half-open box `[x, x+w) × [y, y+h)`. -/
def Rect.mem (r : Rect) (p q : ℚ) : Prop :=
  r.x ≤ p ∧ p < r.x + r.w ∧ r.y ≤ q ∧ q < r.y + r.h

/-- Two rectangles share no point. -/
def RectDisjoint (a b : Rect) : Prop :=
  ∀ p q : ℚ, a.mem p q → b.mem p q → False

/-- The emitted rects are pairwise non-overlapping. -/
def pairwiseDisjoint (rs : List PRect) : Prop :=
  rs.Pairwise (fun a b => RectDisjoint a.toRect b.toRect)

/-- The emitted rects cover exactly the region `R`: every point of `R` is
in some rect and no rect leaves `R`. -/
def coversExactly (rs : List PRect) (R : Rect) : Prop :=
  ∀ p q : ℚ, (∃ r ∈ rs, Rect.mem r.toRect p q) ↔ R.mem p q

/-- The total emitted area `Σ r.w * r.h`. -/
def rectAreaSum (rs : List PRect) : ℚ := (rs.map (fun r => r.w * r.h)).sum

/-! ## RenderScheduler: the stability gate of `draw` (lines 71-110) -/

def STABLE_FRAMES_REQUIRED : Nat := 2
def SIZE_EPS_PX : ℚ := 1/2

/-- The per-surface fields the stability gate reads and writes
(`state._lastW`, `_lastH`, `_stableFrames`, `_stabilizeTries`). -/
structure SchedState where
  lastW : Option ℚ
  lastH : Option ℚ
  stableFrames : Nat
  stabilizeTries : Nat
deriving DecidableEq, Repr

/-- A fresh per-surface state: all fields undefined / zero. -/
def freshState : SchedState := ⟨none, none, 0, 0⟩

/-- What one scheduled tick does besides mutating the state: `draws` =
falls through to the actual render, `waits` = `scheduleDraw` and return,
`skips` = the `pxW < 2 || pxH < 2` early return (no reschedule). -/
inductive TickOutcome where
  | draws
  | waits
  | skips
deriving DecidableEq, Repr

/-- `prevW == null || prevH == null || Math.abs(pxW - prevW) > SIZE_EPS_PX
|| Math.abs(pxH - prevH) > SIZE_EPS_PX`. -/
def sizeChanged (st : SchedState) (pxW pxH : ℚ) : Bool :=
  match st.lastW, st.lastH with
  | some a, some b =>
      decide (|pxW - a| > SIZE_EPS_PX) || decide (|pxH - b| > SIZE_EPS_PX)
  | _, _ => true

/-- One scheduled tick of `draw` given the size read `(pxW, pxH)`:
lines 80-110 of the source. -/
def tick (st : SchedState) (pxW pxH : ℚ) : SchedState × TickOutcome :=
  if pxW = 0 ∨ pxH = 0 ∨ pxW < 2 ∨ pxH < 2 then (st, .skips)
  else if sizeChanged st pxW pxH then
    let st' : SchedState :=
      { lastW := some pxW, lastH := some pxH, stableFrames := 0
        stabilizeTries := st.stabilizeTries + 1 }
    if st'.stabilizeTries < 12 then (st', .waits) else (st', .draws)
  else
    let st' : SchedState :=
      { st with stableFrames := st.stableFrames + 1, stabilizeTries := 0 }
    if st'.stableFrames < STABLE_FRAMES_REQUIRED then (st', .waits) else (st', .draws)

/-- Run the gate over a sequence of size reads, one per scheduled tick, and
return the 0-based index of the tick on which the first draw fires (the
chain stops there: the draw path does not reschedule, so within one resize
episode exactly the returned tick draws). `none` = no draw fired within the
given reads. -/
def runTicks : SchedState → List (ℚ × ℚ) → Option Nat
  | _, [] => none
  | st, r :: rs =>
      match tick st r.1 r.2 with
      | (_, .draws) => some 0
      | (st', .waits) => (runTicks st' rs).map (· + 1)
      | (_, .skips) => none

/-- Consecutive reads all differ by more than `SIZE_EPS_PX` on some axis. -/
def consecDiffer : List (ℚ × ℚ) → Bool
  | a :: b :: rest =>
      (decide (|b.1 - a.1| > SIZE_EPS_PX) || decide (|b.2 - a.2| > SIZE_EPS_PX))
        && consecDiffer (b :: rest)
  | _ => true

/-! ## ContentFitModel: `draw` lines 155-169, over `ℝ` for `Math.sqrt` -/

/-- `Math.min(tileHeightPx / cfg.baseContentHeightPx, tileWidthPx /
cfg.baseContentWidthPx)` for the rect `(w, h)` normalized in a `pxW × pxH`
container. -/
noncomputable def tileFitScale (w h pxW pxH baseH baseW : ℚ) : ℝ :=
  min (((h * pxH : ℚ) : ℝ) / ((baseH : ℚ) : ℝ)) (((w * pxW : ℚ) : ℝ) / ((baseW : ℚ) : ℝ))

/-- The per-tile scale of lines 158-169: `0.42 + Math.sqrt(areaNorm) * 3`,
tightened by `fitScale`, then the two sequential clamps (`if (scale < 0.32)
scale = 0.32; if (scale > 3) scale = 3`), written as `max`/`min`. The
`Number.isFinite(fitScale)` guard only fails for zero/absent baselines
(float division by zero); with nonzero rational baselines the ratio is
always finite and the `min` is always applied, as here. -/
noncomputable def deriveScale (w h pxW pxH baseH baseW : ℚ) : ℝ :=
  let areaNorm : ℝ := ((w * h : ℚ) : ℝ)
  let scale₀ := 0.42 + Real.sqrt areaNorm * 3
  let scale₁ := min scale₀ (tileFitScale w h pxW pxH baseH baseW)
  let scale₂ := max scale₁ 0.32
  min scale₂ 3

/-! ## Concrete inputs used by the concrete-scenario theorems -/

def tileA : Tile := ⟨"A", .num 60⟩
def tileB : Tile := ⟨"B", .num 25⟩
def tileC : Tile := ⟨"C", .num 15⟩
def tileBTC : Tile := ⟨"BTC", .num 1⟩
def tileETH : Tile := ⟨"ETH", .num 1⟩
def tileT : Tile := ⟨"T", .num 1⟩

/-- The spec's concrete scenario: weights 60 / 25 / 15. -/
def nodesABC : List Node := [⟨tileA, 60⟩, ⟨tileB, 25⟩, ⟨tileC, 15⟩]

/-- 301 equal-weight nodes: in a `1 × 301` container every strip is a
singleton, so the crypto loop's 300-iteration safeguard runs out with one
node still unplaced. -/
def nodes301 : List Node := List.replicate 301 ⟨tileT, 1⟩

/-- A config with no priority symbols and no pinned symbol. -/
def cfgPlain : Cfg := getRenderConfig ⟨[], none, none⟩ 46 70

/-- A config pinning `BTC` to the full-width top strip. -/
def cfgPinBTC : Cfg := getRenderConfig ⟨[], some "BTC", none⟩ 46 70

/-- A config marking `ETH` as a priority symbol. -/
def cfgPriETH : Cfg := getRenderConfig ⟨["ETH"], none, none⟩ 46 70

/-! # Theorems -/

/-- C2, counterexample. Under the base orientation "row" — the squarify
partitioner with its first strip forced horizontal, exactly how the
`default` mode calls it — the first committed strip for A/B/C in 300×100 is
A alone as a full-width row of height 60, not the claimed
`{x:0, y:0, w:180, h:100}`. -/
theorem claim2_cex :
    (squarifyRectsPx nodesABC 300 100 true).head? = some ⟨tileA, 0, 0, 300, 60⟩ ∧
    (squarifyRectsPx nodesABC 300 100 true).head? ≠ some ⟨tileA, 0, 0, 180, 100⟩ := by
  constructor
  · with_unfolding_all decide
  · with_unfolding_all decide

/-- C2, amended: the claimed rects are those of the crypto partitioner,
whose base-orientation policy ("prefer a column when the region is shorter
than wide") picks a column for the 300×100 region: the first committed
strip is A alone with rect `{x:0, y:0, w:180, h:100}`, and the remaining
120×100 region is strip-filled by B (75×100) then C (45×100), i.e. in
proportion 25 : 15 to their weights. -/
theorem claim2_crypto_scenario :
    cryptoRectsPx nodesABC 300 100 cfgPlain =
      [⟨tileA, 0, 0, 180, 100⟩, ⟨tileB, 180, 0, 75, 100⟩, ⟨tileC, 255, 0, 45, 100⟩] := by
  with_unfolding_all decide

/-- C3, counterexample. From a fresh state, the reads
`[(100,98), (140,140), (140,140)]` produce no draw at all: the second read
still differs from the last-seen size, so the settle counter first
increments on the third read (to 1 < 2) and the first draw would only fire
on a fourth read. The claim's "first draw happens on the third read" fails. -/
theorem claim3_cex :
    runTicks freshState [(100, 98), (140, 140), (140, 140)] = none := by
  with_unfolding_all decide

/-- C9, counterexample. A zero-width container does *not* always yield an
empty list: the crypto variant with a matching pinned-top symbol emits the
pinned rect before any degeneracy check. -/
theorem claim9_cex :
    computeCryptoTreemap [⟨tileBTC, 1⟩] 0 100 cfgPinBTC ≠ [] := by
  with_unfolding_all decide

/-- C7 (confirmed): tile normalization replaces a missing / non-numeric /
NaN / non-positive `marketCap` by 1, yields exactly one weighted node per
record in order (the positivity filter drops nothing), every weight is
strictly positive, and the map/filter pipeline is total (no exception
path). -/
theorem claim7_tile_normalization :
    ∀ tiles : List Tile,
      toNodes tiles = tiles.map (fun t => { tile := t, weight := normalizedCap t.marketCap }) ∧
      (toNodes tiles).length = tiles.length ∧
      ∀ t : Tile, 0 < normalizedCap t.marketCap := by
  have hpos : ∀ t : Tile, 0 < normalizedCap t.marketCap := by
    intro t
    cases h : t.marketCap with
    | num q =>
        simp only [normalizedCap]
        split
        · assumption
        · norm_num
    | nan => simp [normalizedCap]
    | other => simp [normalizedCap]
  intro tiles
  have hmap : toNodes tiles
      = tiles.map (fun t => { tile := t, weight := normalizedCap t.marketCap }) := by
    unfold toNodes
    apply List.filter_eq_self.mpr
    intro n hn
    rcases List.mem_map.mp hn with ⟨t, _, rfl⟩
    simpa using hpos t
  refine ⟨hmap, ?_, hpos⟩
  rw [hmap, List.length_map]

/-- C8 (confirmed): the layout computation is deterministic — two
invocations on equal ordered tiles, weights, container size and
options/policy return equal rect lists. In this embedding both
partitioners are pure functions of their arguments (the source's only
ordering step is a stable sort and no other nondeterminism exists), so
equal inputs give equal outputs definitionally. -/
theorem claim8_determinism :
    ∀ (nodes₁ nodes₂ : List Node) (W₁ W₂ H₁ H₂ : ℚ) (f₁ f₂ : Bool) (cfg₁ cfg₂ : Cfg),
      nodes₁ = nodes₂ → W₁ = W₂ → H₁ = H₂ → f₁ = f₂ → cfg₁ = cfg₂ →
      computeSquarifyTreemap nodes₁ W₁ H₁ f₁ = computeSquarifyTreemap nodes₂ W₂ H₂ f₂ ∧
      computeCryptoTreemap nodes₁ W₁ H₁ cfg₁ = computeCryptoTreemap nodes₂ W₂ H₂ cfg₂ := by
  intro nodes₁ nodes₂ W₁ W₂ H₁ H₂ f₁ f₂ cfg₁ cfg₂ hn hW hH hf hc
  subst hn; subst hW; subst hH; subst hf; subst hc
  exact ⟨rfl, rfl⟩

/-- Witness for C8 at the concrete A/B/C scenario. -/
theorem claim8_witness :
    (nodesABC = nodesABC ∧ (300 : ℚ) = 300 ∧ (100 : ℚ) = 100 ∧ true = true ∧
      cfgPlain = cfgPlain) ∧
    computeSquarifyTreemap nodesABC 300 100 true = computeSquarifyTreemap nodesABC 300 100 true ∧
    computeCryptoTreemap nodesABC 300 100 cfgPlain
      = computeCryptoTreemap nodesABC 300 100 cfgPlain :=
  ⟨⟨rfl, rfl, rfl, rfl, rfl⟩,
   claim8_determinism nodesABC nodesABC 300 300 100 100 true true cfgPlain cfgPlain
     rfl rfl rfl rfl rfl⟩

/-- C4, counterexample. The code clamps to `[0.32, 3]` *after* taking the
minimum with the fit ratio, so for a tile whose fit ratio is below 0.32
(here `min(10/46, 10/70) = 1/7`) the final scale is floored at `0.32`,
which exceeds both fit ratios — the claimed "final scale never exceeds
either fit ratio" fails and such content can overflow its rect. -/
theorem claim4_cex :
    tileFitScale (1/2) (1/2) 20 20 46 70 < deriveScale (1/2) (1/2) 20 20 46 70 := by
  have hsqrt : Real.sqrt (((1/2 * (1/2) : ℚ) : ℝ)) = 1/2 := by
    rw [show (((1/2 * (1/2) : ℚ)) : ℝ) = (1/2 : ℝ)^2 by push_cast; ring]
    exact Real.sqrt_sq (by norm_num)
  simp only [deriveScale, tileFitScale, hsqrt]
  push_cast
  norm_num [min_def, max_def]

/-- C4, amended: the scale is the clamp to `[0.32, 3]` of the minimum of
the area heuristic `0.42 + 3·sqrt(normalizedArea)` and the fit ratio
(`deriveScale` is definitionally that formula, with the clamp applied
last); consequently the scale never exceeds `max 0.32 fitRatio`, and it
never exceeds either individual fit ratio whenever the combined fit ratio
is at least the 0.32 floor (the heuristic term is always `≥ 0.42`, so only
the low clamp can push the scale above the fit ratio). -/
theorem claim4_scale_fit :
    ∀ w h pxW pxH baseH baseW : ℚ,
      deriveScale w h pxW pxH baseH baseW ≤ max 0.32 (tileFitScale w h pxW pxH baseH baseW) ∧
      ((0.32 : ℝ) ≤ tileFitScale w h pxW pxH baseH baseW →
        deriveScale w h pxW pxH baseH baseW ≤ ((h * pxH : ℚ) : ℝ) / ((baseH : ℚ) : ℝ) ∧
        deriveScale w h pxW pxH baseH baseW ≤ ((w * pxW : ℚ) : ℝ) / ((baseW : ℚ) : ℝ)) := by
  intro w h pxW pxH baseH baseW
  unfold deriveScale
  constructor
  · refine le_trans (min_le_left _ _) ?_
    refine le_trans (max_le_max (min_le_right _ _) (le_refl (0.32 : ℝ))) ?_
    exact le_of_eq (max_comm _ _)
  · intro hfit
    have hle : min (0.42 + Real.sqrt ((w * h : ℚ) : ℝ) * 3)
        (tileFitScale w h pxW pxH baseH baseW) ≤ tileFitScale w h pxW pxH baseH baseW :=
      min_le_right _ _
    have hmax : max (min (0.42 + Real.sqrt ((w * h : ℚ) : ℝ) * 3)
        (tileFitScale w h pxW pxH baseH baseW)) 0.32 ≤ tileFitScale w h pxW pxH baseH baseW :=
      max_le hle hfit
    have hd : min (max (min (0.42 + Real.sqrt ((w * h : ℚ) : ℝ) * 3)
        (tileFitScale w h pxW pxH baseH baseW)) 0.32) 3
        ≤ tileFitScale w h pxW pxH baseH baseW :=
      le_trans (min_le_left _ _) hmax
    constructor
    · exact le_trans hd (min_le_left _ _)
    · exact le_trans hd (min_le_right _ _)

/-- C5 (confirmed): the crypto thin-strip governor. A strip with no
priority tile keeps the base orientation; a priority strip whose would-be
thickness under the base orientation (strip area ÷ spanned side) is below
the configured minimum is flipped, and otherwise kept; the configured
minima are exactly the baseline dimensions times the (validated) caller
factor; and the loop commits every strip with the single orientation
decision — one flip attempt, committed unconditionally even if the flipped
thickness is still below the threshold. -/
theorem claim5_priority_flip :
    ∀ (cfg : Cfg) (strip : List Item) (rect : Rect),
      (stripHasPriority cfg strip = false →
        chooseHorizontal cfg strip rect = baseHorizontal rect) ∧
      (stripHasPriority cfg strip = true →
        (baseHorizontal rect = true →
          (sumArea strip / rect.w < cfg.minPriorityStripHeightPx →
            chooseHorizontal cfg strip rect = false) ∧
          (¬ sumArea strip / rect.w < cfg.minPriorityStripHeightPx →
            chooseHorizontal cfg strip rect = true)) ∧
        (baseHorizontal rect = false →
          (sumArea strip / rect.h < cfg.minPriorityStripWidthPx →
            chooseHorizontal cfg strip rect = true) ∧
          (¬ sumArea strip / rect.h < cfg.minPriorityStripWidthPx →
            chooseHorizontal cfg strip rect = false))) ∧
      (∀ (opts : RenderOptions) (baseH baseW : ℚ),
        (getRenderConfig opts baseH baseW).minPriorityStripHeightPx
            = baseH * (getRenderConfig opts baseH baseW).minPriorityTextScale ∧
        (getRenderConfig opts baseH baseW).minPriorityStripWidthPx
            = baseW * (getRenderConfig opts baseH baseW).minPriorityTextScale) ∧
      (∀ (fuel : Nat) (it : Item) (rest : List Item),
        ¬ (rect.w ≤ 0 ∨ rect.h ≤ 0) →
        cryptoLoop cfg (fuel + 1) (it :: rest) rect =
          (layoutStrip (if (buildStrip (it :: rest) (min rect.w rect.h)).isEmpty then [it]
              else buildStrip (it :: rest) (min rect.w rect.h)) rect
            (chooseHorizontal cfg
              (if (buildStrip (it :: rest) (min rect.w rect.h)).isEmpty then [it]
                else buildStrip (it :: rest) (min rect.w rect.h)) rect)).1 ++
          cryptoLoop cfg fuel
            ((it :: rest).drop
              (if (buildStrip (it :: rest) (min rect.w rect.h)).isEmpty then [it]
                else buildStrip (it :: rest) (min rect.w rect.h)).length)
            (layoutStrip (if (buildStrip (it :: rest) (min rect.w rect.h)).isEmpty then [it]
                else buildStrip (it :: rest) (min rect.w rect.h)) rect
              (chooseHorizontal cfg
                (if (buildStrip (it :: rest) (min rect.w rect.h)).isEmpty then [it]
                  else buildStrip (it :: rest) (min rect.w rect.h)) rect)).2) := by
  intro cfg strip rect
  refine ⟨?_, ?_, ?_, ?_⟩
  · intro hp
    unfold chooseHorizontal
    cases hb : baseHorizontal rect <;> simp [hp]
  · intro hp
    constructor
    · intro hb
      constructor
      · intro hthin
        unfold chooseHorizontal
        simp [hb, hp, hthin]
      · intro hthin
        unfold chooseHorizontal
        simp [hb, hp, hthin]
    · intro hb
      constructor
      · intro hthin
        unfold chooseHorizontal
        simp [hb, hp, hthin]
      · intro hthin
        unfold chooseHorizontal
        simp [hb, hp, hthin]
  · intro opts baseH baseW
    exact ⟨rfl, rfl⟩
  · intro fuel it rest hguard
    conv_lhs => rw [cryptoLoop]
    rw [if_neg hguard]


/-- A tick whose read differs from the last-seen size (and is below the
retry cap) records the new size, resets the settle counter, bumps the retry
counter and reschedules. -/
lemma tick_changed (st : SchedState) (pxW pxH : ℚ) (hW : 2 ≤ pxW) (hH : 2 ≤ pxH)
    (hch : sizeChanged st pxW pxH = true) (hcap : st.stabilizeTries + 1 < 12) :
    tick st pxW pxH = (⟨some pxW, some pxH, 0, st.stabilizeTries + 1⟩, .waits) := by
  unfold tick
  rw [if_neg, if_pos, if_pos]
  · exact hcap
  · exact hch
  · push_neg
    refine ⟨by linarith, by linarith, by linarith, by linarith⟩

/-- A stable tick below the settle requirement increments the settle
counter and reschedules. -/
lemma tick_stable_wait (st : SchedState) (pxW pxH : ℚ) (hW : 2 ≤ pxW) (hH : 2 ≤ pxH)
    (hch : sizeChanged st pxW pxH = false) (hsf : st.stableFrames + 1 < 2) :
    tick st pxW pxH
      = ({ st with stableFrames := st.stableFrames + 1, stabilizeTries := 0 }, .waits) := by
  unfold tick
  rw [if_neg, if_neg, if_pos]
  · exact hsf
  · simp [hch]
  · push_neg
    refine ⟨by linarith, by linarith, by linarith, by linarith⟩

/-- A stable tick reaching the settle requirement draws. -/
lemma tick_stable_draw (st : SchedState) (pxW pxH : ℚ) (hW : 2 ≤ pxW) (hH : 2 ≤ pxH)
    (hch : sizeChanged st pxW pxH = false) (hsf : ¬ st.stableFrames + 1 < 2) :
    tick st pxW pxH
      = ({ st with stableFrames := st.stableFrames + 1, stabilizeTries := 0 }, .draws) := by
  unfold tick
  rw [if_neg, if_neg, if_neg]
  · exact hsf
  · simp [hch]
  · push_neg
    refine ⟨by linarith, by linarith, by linarith, by linarith⟩

/-- Reading exactly the last-seen size is not a change. -/
lemma sizeChanged_same (a b : ℚ) (sf t : ℕ) :
    sizeChanged ⟨some a, some b, sf, t⟩ a b = false := by
  simp [sizeChanged, SIZE_EPS_PX]

/-- From a just-changed state, a constant read sequence draws exactly on
its second read. -/
lemma runTicks_stable (c : ℚ × ℚ) (m t : ℕ) (hW : 2 ≤ c.1) (hH : 2 ≤ c.2) (hm : 2 ≤ m) :
    runTicks ⟨some c.1, some c.2, 0, t⟩ (List.replicate m c) = some 1 := by
  obtain ⟨m', rfl⟩ : ∃ m', m = m' + 2 := ⟨m - 2, by omega⟩
  rw [List.replicate_succ, List.replicate_succ]
  have h1 := tick_stable_wait ⟨some c.1, some c.2, 0, t⟩ c.1 c.2 hW hH
    (sizeChanged_same _ _ _ _) (by norm_num)
  have h2 := tick_stable_draw ⟨some c.1, some c.2, 1, 0⟩ c.1 c.2 hW hH
    (sizeChanged_same _ _ _ _) (by norm_num)
  simp [runTicks, h1, h2]

/-- A chain of pairwise-differing reads followed by a constant tail: each
read of the chain takes the changed branch, and the draw fires two reads
after the chain ends, provided the retry cap is never reached. -/
lemma runTicks_changed_chain :
    ∀ (pre : List (ℚ × ℚ)) (c : ℚ × ℚ) (m : ℕ) (st : SchedState),
      (∀ r ∈ pre, 2 ≤ r.1 ∧ 2 ≤ r.2) → 2 ≤ c.1 → 2 ≤ c.2 →
      consecDiffer (pre ++ [c]) = true →
      sizeChanged st ((pre ++ [c]).headI).1 ((pre ++ [c]).headI).2 = true →
      st.stabilizeTries + pre.length + 1 ≤ 11 →
      3 ≤ m →
      runTicks st (pre ++ List.replicate m c) = some (pre.length + 2) := by
  intro pre
  induction pre with
  | nil =>
      intro c m st _ hW hH _ hch hcap hm
      simp only [List.nil_append, List.headI] at hch
      obtain ⟨m', rfl⟩ : ∃ m', m = m' + 1 := ⟨m - 1, by omega⟩
      rw [List.replicate_succ]
      have h1 := tick_changed st c.1 c.2 hW hH hch (by omega)
      have h2 := runTicks_stable c m' (st.stabilizeTries + 1) hW hH (by omega)
      simp [runTicks, h1, h2]
  | cons a pre' ih =>
      intro c m st hbig hW hH hcd hch hcap hm
      have hbigA := hbig a (List.mem_cons_self a pre')
      simp only [List.cons_append, List.headI] at hch
      have h1 := tick_changed st a.1 a.2 hbigA.1 hbigA.2 hch (by simp at hcap; omega)
      rcases hq : pre' ++ [c] with _ | ⟨b, rest⟩
      · exact absurd hq (by simp)
      have hsplit : (SIZE_EPS_PX < |b.1 - a.1| ∨ SIZE_EPS_PX < |b.2 - a.2|) ∧
          consecDiffer (b :: rest) = true := by
        have hcda : consecDiffer (a :: b :: rest) = true := by
          rw [← hq]; simpa [List.cons_append] using hcd
        simpa [consecDiffer] using hcda
      have hcd' : consecDiffer (pre' ++ [c]) = true := by rw [hq]; exact hsplit.2
      have hchNext : sizeChanged ⟨some a.1, some a.2, 0, st.stabilizeTries + 1⟩
          ((pre' ++ [c]).headI).1 ((pre' ++ [c]).headI).2 = true := by
        rw [hq]
        simp only [List.headI]
        simpa [sizeChanged] using hsplit.1
      have h2 := ih c m ⟨some a.1, some a.2, 0, st.stabilizeTries + 1⟩
        (fun r hr => hbig r (List.mem_cons_of_mem a hr)) hW hH hcd' hchNext
        (by simp at hcap ⊢; omega) hm
      simp only [List.cons_append]
      simp [runTicks, h1, h2, List.length_cons]

/-- C3, amended. From a fresh state, with reads that differ pairwise by
more than 0.5 px for a prefix (of at most 11 changed ticks, so the
12-retry liveness cap never forces an early draw) and are then constant,
exactly one draw fires (the model stops at the draw), and it fires on the
second read that compares stable against the last-seen size — i.e. on the
third read of the constant suffix, read index `pre.length + 2` (0-based) —
and not earlier. With N = STABLE_FRAMES_REQUIRED = 2 and reads
[100,98; 140,140; 140,140; 140,140] the first draw happens on the fourth
read (`claim3_cex` shows no draw fires within the first three). -/
theorem claim3_stability_gate :
    ∀ (pre : List (ℚ × ℚ)) (c : ℚ × ℚ) (m : ℕ),
      (∀ r ∈ pre, 2 ≤ r.1 ∧ 2 ≤ r.2) → 2 ≤ c.1 → 2 ≤ c.2 →
      consecDiffer (pre ++ [c]) = true →
      pre.length ≤ 10 → 3 ≤ m →
      runTicks freshState (pre ++ List.replicate m c) = some (pre.length + 2) := by
  intro pre c m hbig hW hH hcd hlen hm
  apply runTicks_changed_chain pre c m freshState hbig hW hH hcd
  · rfl
  · simpa [freshState] using by omega
  · exact hm

/-- Witness for C3 (amended) at the concrete reads: one changing read, then
three constant reads; the draw fires on the fourth read (0-based index 3). -/
theorem claim3_witness :
    ((∀ r ∈ [((100 : ℚ), (98 : ℚ))], 2 ≤ r.1 ∧ 2 ≤ r.2) ∧
      (2 : ℚ) ≤ 140 ∧ (2 : ℚ) ≤ 140 ∧
      consecDiffer ([((100 : ℚ), (98 : ℚ))] ++ [((140 : ℚ), (140 : ℚ))]) = true ∧
      [((100 : ℚ), (98 : ℚ))].length ≤ 10 ∧ 3 ≤ 3) ∧
    runTicks freshState ([((100 : ℚ), (98 : ℚ))] ++ List.replicate 3 ((140 : ℚ), (140 : ℚ)))
      = some 3 :=
  ⟨⟨by
      intro r hr
      rw [List.mem_singleton] at hr
      subst hr
      exact ⟨by norm_num, by norm_num⟩,
    by norm_num, by norm_num, by with_unfolding_all decide, by norm_num, le_refl 3⟩,
   claim3_stability_gate [((100 : ℚ), (98 : ℚ))] ((140 : ℚ), (140 : ℚ)) 3
     (by
       intro r hr
       rw [List.mem_singleton] at hr
       subst hr
       exact ⟨by norm_num, by norm_num⟩)
     (by norm_num) (by norm_num) (by with_unfolding_all decide) (by norm_num) (by norm_num)⟩



/-! ## Partition machinery for the squarify and crypto partitioners -/

/-- Folding the area sum from `c` shifts by `c`. -/
lemma foldl_area_shift (arr : List Item) (c : ℚ) :
    arr.foldl (fun s it => s + it.area) c = c + arr.foldl (fun s it => s + it.area) 0 := by
  induction arr generalizing c with
  | nil => simp
  | cons it rest ih =>
      rw [List.foldl_cons, ih, List.foldl_cons, ih (0 + it.area)]
      ring

lemma sumArea_nil : sumArea [] = 0 := rfl

lemma sumArea_cons (it : Item) (arr : List Item) :
    sumArea (it :: arr) = it.area + sumArea arr := by
  simp only [sumArea, List.foldl_cons]
  rw [foldl_area_shift]
  ring

lemma sumArea_append (a b : List Item) :
    sumArea (a ++ b) = sumArea a + sumArea b := by
  induction a with
  | nil => simp [sumArea_nil, sumArea]
  | cons it rest ih => rw [List.cons_append, sumArea_cons, sumArea_cons, ih]; ring

lemma sumArea_eq_mapSum (arr : List Item) : sumArea arr = (arr.map (fun it => it.area)).sum := by
  induction arr with
  | nil => rfl
  | cons it rest ih => rw [sumArea_cons, List.map_cons, List.sum_cons, ih]

lemma sumArea_nonneg (arr : List Item) (h : ∀ it ∈ arr, 0 < it.area) : 0 ≤ sumArea arr := by
  induction arr with
  | nil => simp [sumArea_nil]
  | cons it rest ih =>
      rw [sumArea_cons]
      have h1 := h it (List.mem_cons_self it rest)
      have h2 := ih (fun x hx => h x (List.mem_cons_of_mem it hx))
      linarith

lemma sumArea_pos (arr : List Item) (hne : arr ≠ []) (h : ∀ it ∈ arr, 0 < it.area) :
    0 < sumArea arr := by
  cases arr with
  | nil => exact absurd rfl hne
  | cons it rest =>
      rw [sumArea_cons]
      have h1 := h it (List.mem_cons_self it rest)
      have h2 := sumArea_nonneg rest (fun x hx => h x (List.mem_cons_of_mem it hx))
      linarith

/-- Folding the weight sum from `c` shifts by `c`. -/
lemma foldl_weight_shift (nodes : List Node) (c : ℚ) :
    nodes.foldl (fun s n => s + n.weight) c = c + nodes.foldl (fun s n => s + n.weight) 0 := by
  induction nodes generalizing c with
  | nil => simp
  | cons n rest ih =>
      rw [List.foldl_cons, ih, List.foldl_cons, ih (0 + n.weight)]
      ring

lemma sumWeight_cons (n : Node) (nodes : List Node) :
    sumWeight (n :: nodes) = n.weight + sumWeight nodes := by
  simp only [sumWeight, List.foldl_cons]
  rw [foldl_weight_shift]
  ring

lemma sumWeight_eq_mapSum (nodes : List Node) :
    sumWeight nodes = (nodes.map (fun n => n.weight)).sum := by
  induction nodes with
  | nil => rfl
  | cons n rest ih => rw [sumWeight_cons, List.map_cons, List.sum_cons, ih]

lemma sumWeight_pos (nodes : List Node) (hne : nodes ≠ []) (h : ∀ n ∈ nodes, 0 < n.weight) :
    0 < sumWeight nodes := by
  cases nodes with
  | nil => exact absurd rfl hne
  | cons n rest =>
      rw [sumWeight_cons]
      have h1 := h n (List.mem_cons_self n rest)
      have h2 : 0 ≤ sumWeight rest := by
        rw [sumWeight_eq_mapSum]
        apply List.sum_nonneg
        intro x hx
        rcases List.mem_map.mp hx with ⟨nn, hnn, rfl⟩
        exact le_of_lt (h nn (List.mem_cons_of_mem n hnn))
      linarith

/-- Stable insertion is a permutation of consing. -/
lemma insertWeightDesc_perm (n : Node) (l : List Node) :
    (insertWeightDesc n l).Perm (n :: l) := by
  induction l with
  | nil => simp [insertWeightDesc]
  | cons m ms ih =>
      unfold insertWeightDesc
      split
      · exact List.Perm.refl _
      · exact (List.Perm.cons m ih).trans (List.Perm.swap n m ms)

/-- The stable descending sort is a permutation of its input. -/
lemma sortByWeightDesc_perm (nodes : List Node) :
    (sortByWeightDesc nodes).Perm nodes := by
  have haux : ∀ (l acc : List Node),
      (l.foldl (fun acc n => insertWeightDesc n acc) acc).Perm (acc ++ l) := by
    intro l
    induction l with
    | nil => intro acc; simp
    | cons n rest ih =>
        intro acc
        rw [List.foldl_cons]
        refine (ih (insertWeightDesc n acc)).trans ?_
        exact List.Perm.trans (List.Perm.append_right rest (insertWeightDesc_perm n acc))
          List.perm_middle.symm
  simpa using haux nodes []

/-- `weightedItems` facts: tiles are a permutation of the input tiles. -/
lemma weightedItems_tiles_perm (nodes : List Node) (W H : ℚ) :
    ((weightedItems nodes W H).map (fun r => r.tile)).Perm (nodes.map (fun n => n.tile)) := by
  unfold weightedItems
  rw [List.map_map]
  exact (sortByWeightDesc_perm nodes).map _

/-- All weighted areas are positive for positive weights and dimensions. -/
lemma weightedItems_area_pos (nodes : List Node) (W H : ℚ) (hW : 0 < W) (hH : 0 < H)
    (hne : nodes ≠ []) (hpos : ∀ n ∈ nodes, 0 < n.weight) :
    ∀ it ∈ weightedItems nodes W H, 0 < it.area := by
  intro it hit
  unfold weightedItems at hit
  rcases List.mem_map.mp hit with ⟨n, hn, rfl⟩
  have hn' : n ∈ nodes := (sortByWeightDesc_perm nodes).subset hn
  have hT : 0 < sumWeight nodes := sumWeight_pos nodes hne hpos
  exact mul_pos (div_pos (hpos n hn') hT) (mul_pos hW hH)

/-- Sorting preserves the total weight. -/
lemma sumWeight_sort (nodes : List Node) :
    sumWeight (sortByWeightDesc nodes) = sumWeight nodes := by
  rw [sumWeight_eq_mapSum, sumWeight_eq_mapSum]
  exact ((sortByWeightDesc_perm nodes).map _).sum_eq

/-- The allocated areas sum exactly to the container area. -/
lemma weightedItems_sumArea (nodes : List Node) (W H : ℚ) (hT : sumWeight nodes ≠ 0) :
    sumArea (weightedItems nodes W H) = W * H := by
  have haux : ∀ l : List Node,
      sumArea (l.map (fun n =>
        ({ tile := n.tile, area := n.weight / sumWeight nodes * (W * H) } : Item)))
        = sumWeight l / sumWeight nodes * (W * H) := by
    intro l
    induction l with
    | nil => simp [sumArea_nil, sumWeight]
    | cons n rest ih =>
        rw [List.map_cons, sumArea_cons, ih, sumWeight_cons, add_div, add_mul]
  unfold weightedItems
  rw [haux, sumWeight_sort, div_self hT, one_mul]

/-- The central placement lemma, horizontal case: under the exact-sum
hypothesis the emitted rects tile the strip band `[x, xEnd) × [y, y+stripH)`
exactly — they cover it, are pairwise disjoint, their areas sum to the strip
area, and their tiles are the strip's tiles in order. -/
lemma placeH_spec :
    ∀ (arr : List Item) (x : ℚ) {y stripH xEnd : ℚ},
      arr ≠ [] → 0 < stripH → (∀ it ∈ arr, 0 < it.area) →
      x + sumArea arr / stripH = xEnd →
      (∀ p q : ℚ,
        (∃ r ∈ placeH arr x y stripH xEnd, Rect.mem r.toRect p q) ↔
          (x ≤ p ∧ p < xEnd ∧ y ≤ q ∧ q < y + stripH)) ∧
      pairwiseDisjoint (placeH arr x y stripH xEnd) ∧
      rectAreaSum (placeH arr x y stripH xEnd) = sumArea arr ∧
      (placeH arr x y stripH xEnd).map (fun r => r.tile) = arr.map (fun it => it.tile) := by
  intro arr
  induction arr with
  | nil => intro x y stripH xEnd hne; exact absurd rfl hne
  | cons it rest ih =>
    intro x y stripH xEnd _ hH hpos hsum
    have hit : 0 < it.area := hpos it (List.mem_cons_self it rest)
    cases rest with
    | nil =>
        have hs : sumArea [it] = it.area := by rw [sumArea_cons, sumArea_nil, add_zero]
        rw [hs] at hsum
        have hwpos : 0 < xEnd - x := by
          have := div_pos hit hH
          linarith
        have hmax : max 0 (xEnd - x) = xEnd - x := max_eq_right (le_of_lt hwpos)
        refine ⟨?_, ?_, ?_, ?_⟩
        · intro p q
          simp only [placeH, List.mem_singleton, exists_eq_left, Rect.mem, PRect.toRect, hmax]
          constructor
          · rintro ⟨h1, h2, h3, h4⟩
            exact ⟨h1, by linarith, h3, h4⟩
          · rintro ⟨h1, h2, h3, h4⟩
            exact ⟨h1, by linarith, h3, h4⟩
        · simp [placeH, pairwiseDisjoint]
        · simp only [placeH, rectAreaSum, List.map_cons, List.map_nil, List.sum_cons,
            List.sum_nil, add_zero, hmax, hs]
          rw [← hsum]
          field_simp
          ring
        · simp [placeH]
    | cons it' rest' =>
        have hx' : x + it.area / stripH + sumArea (it' :: rest') / stripH = xEnd := by
          rw [sumArea_cons, add_div] at hsum
          linarith
        have hPosTail : ∀ a ∈ it' :: rest', 0 < a.area :=
          fun a ha => hpos a (List.mem_cons_of_mem it ha)
        have hTailPos : 0 < sumArea (it' :: rest') :=
          sumArea_pos _ (List.cons_ne_nil it' rest') hPosTail
        have ha : 0 < it.area / stripH := div_pos hit hH
        have hxx' : x < x + it.area / stripH := by linarith
        have hx'End : x + it.area / stripH < xEnd := by
          have := div_pos hTailPos hH
          linarith
        obtain ⟨ihcov, ihdisj, iharea, ihtiles⟩ :=
          ih (x + it.area / stripH) (List.cons_ne_nil it' rest') hH hPosTail hx'
        refine ⟨?_, ?_, ?_, ?_⟩
        · intro p q
          simp only [placeH, List.mem_cons, exists_eq_or_imp]
          rw [show (∃ r ∈ placeH (it' :: rest') (x + it.area / stripH) y stripH xEnd,
              Rect.mem r.toRect p q) ↔ _ from ihcov p q]
          simp only [Rect.mem, PRect.toRect]
          constructor
          · rintro (⟨h1, h2, h3, h4⟩ | ⟨h1, h2, h3, h4⟩)
            · exact ⟨h1, by linarith, h3, h4⟩
            · exact ⟨by linarith, h2, h3, h4⟩
          · rintro ⟨h1, h2, h3, h4⟩
            rcases lt_or_le p (x + it.area / stripH) with hp | hp
            · exact Or.inl ⟨h1, hp, h3, h4⟩
            · exact Or.inr ⟨hp, h2, h3, h4⟩
        · rw [show placeH (it :: it' :: rest') x y stripH xEnd
              = { tile := it.tile, x := x, y := y, w := it.area / stripH, h := stripH }
                :: placeH (it' :: rest') (x + it.area / stripH) y stripH xEnd from rfl]
          rw [pairwiseDisjoint, List.pairwise_cons]
          refine ⟨?_, ihdisj⟩
          intro b hb p q hm0 hmb
          have hband := (ihcov p q).mp ⟨b, hb, hmb⟩
          simp only [Rect.mem, PRect.toRect] at hm0
          have : p < x + it.area / stripH := by
            have := hm0.2.1
            linarith [hm0.1]
          linarith [hband.1]
        · rw [show placeH (it :: it' :: rest') x y stripH xEnd
              = { tile := it.tile, x := x, y := y, w := it.area / stripH, h := stripH }
                :: placeH (it' :: rest') (x + it.area / stripH) y stripH xEnd from rfl]
          simp only [rectAreaSum, List.map_cons, List.sum_cons] at iharea ⊢
          rw [iharea, div_mul_cancel₀ _ (ne_of_gt hH)]
          simp [sumArea_cons]
        · rw [show placeH (it :: it' :: rest') x y stripH xEnd
              = { tile := it.tile, x := x, y := y, w := it.area / stripH, h := stripH }
                :: placeH (it' :: rest') (x + it.area / stripH) y stripH xEnd from rfl]
          simp only [List.map_cons]
          rw [ihtiles]
          simp only [List.map_cons]

/-- The central placement lemma, vertical case: the emitted rects tile the
column band `[x, x+stripW) × [y, yEnd)` exactly. -/
lemma placeV_spec :
    ∀ (arr : List Item) (y : ℚ) {x stripW yEnd : ℚ},
      arr ≠ [] → 0 < stripW → (∀ it ∈ arr, 0 < it.area) →
      y + sumArea arr / stripW = yEnd →
      (∀ p q : ℚ,
        (∃ r ∈ placeV arr x y stripW yEnd, Rect.mem r.toRect p q) ↔
          (x ≤ p ∧ p < x + stripW ∧ y ≤ q ∧ q < yEnd)) ∧
      pairwiseDisjoint (placeV arr x y stripW yEnd) ∧
      rectAreaSum (placeV arr x y stripW yEnd) = sumArea arr ∧
      (placeV arr x y stripW yEnd).map (fun r => r.tile) = arr.map (fun it => it.tile) := by
  intro arr
  induction arr with
  | nil => intro y x stripW yEnd hne; exact absurd rfl hne
  | cons it rest ih =>
    intro y x stripW yEnd _ hW hpos hsum
    have hit : 0 < it.area := hpos it (List.mem_cons_self it rest)
    cases rest with
    | nil =>
        have hs : sumArea [it] = it.area := by rw [sumArea_cons, sumArea_nil, add_zero]
        rw [hs] at hsum
        have hhpos : 0 < yEnd - y := by
          have := div_pos hit hW
          linarith
        have hmax : max 0 (yEnd - y) = yEnd - y := max_eq_right (le_of_lt hhpos)
        refine ⟨?_, ?_, ?_, ?_⟩
        · intro p q
          simp only [placeV, List.mem_singleton, exists_eq_left, Rect.mem, PRect.toRect, hmax]
          constructor
          · rintro ⟨h1, h2, h3, h4⟩
            exact ⟨h1, h2, h3, by linarith⟩
          · rintro ⟨h1, h2, h3, h4⟩
            exact ⟨h1, h2, h3, by linarith⟩
        · simp [placeV, pairwiseDisjoint]
        · simp only [placeV, rectAreaSum, List.map_cons, List.map_nil, List.sum_cons,
            List.sum_nil, add_zero, hmax, hs]
          rw [← hsum]
          field_simp
          ring
        · simp [placeV]
    | cons it' rest' =>
        have hy' : y + it.area / stripW + sumArea (it' :: rest') / stripW = yEnd := by
          rw [sumArea_cons, add_div] at hsum
          linarith
        have hPosTail : ∀ a ∈ it' :: rest', 0 < a.area :=
          fun a ha => hpos a (List.mem_cons_of_mem it ha)
        have hTailPos : 0 < sumArea (it' :: rest') :=
          sumArea_pos _ (List.cons_ne_nil it' rest') hPosTail
        have ha : 0 < it.area / stripW := div_pos hit hW
        have hyy' : y < y + it.area / stripW := by linarith
        have hy'End : y + it.area / stripW < yEnd := by
          have := div_pos hTailPos hW
          linarith
        obtain ⟨ihcov, ihdisj, iharea, ihtiles⟩ :=
          ih (y + it.area / stripW) (List.cons_ne_nil it' rest') hW hPosTail hy'
        refine ⟨?_, ?_, ?_, ?_⟩
        · intro p q
          simp only [placeV, List.mem_cons, exists_eq_or_imp]
          rw [show (∃ r ∈ placeV (it' :: rest') x (y + it.area / stripW) stripW yEnd,
              Rect.mem r.toRect p q) ↔ _ from ihcov p q]
          simp only [Rect.mem, PRect.toRect]
          constructor
          · rintro (⟨h1, h2, h3, h4⟩ | ⟨h1, h2, h3, h4⟩)
            · exact ⟨h1, h2, h3, by linarith⟩
            · exact ⟨h1, h2, by linarith, h4⟩
          · rintro ⟨h1, h2, h3, h4⟩
            rcases lt_or_le q (y + it.area / stripW) with hq | hq
            · exact Or.inl ⟨h1, h2, h3, hq⟩
            · exact Or.inr ⟨h1, h2, hq, h4⟩
        · rw [show placeV (it :: it' :: rest') x y stripW yEnd
              = { tile := it.tile, x := x, y := y, w := stripW, h := it.area / stripW }
                :: placeV (it' :: rest') x (y + it.area / stripW) stripW yEnd from rfl]
          rw [pairwiseDisjoint, List.pairwise_cons]
          refine ⟨?_, ihdisj⟩
          intro b hb p q hm0 hmb
          have hband := (ihcov p q).mp ⟨b, hb, hmb⟩
          simp only [Rect.mem, PRect.toRect] at hm0
          have : q < y + it.area / stripW := by
            have := hm0.2.2.2
            linarith [hm0.2.2.1]
          linarith [hband.2.2.1]
        · rw [show placeV (it :: it' :: rest') x y stripW yEnd
              = { tile := it.tile, x := x, y := y, w := stripW, h := it.area / stripW }
                :: placeV (it' :: rest') x (y + it.area / stripW) stripW yEnd from rfl]
          simp only [rectAreaSum, List.map_cons, List.sum_cons] at iharea ⊢
          rw [iharea, mul_div_cancel₀ _ (ne_of_gt hW)]
          simp [sumArea_cons]
        · rw [show placeV (it :: it' :: rest') x y stripW yEnd
              = { tile := it.tile, x := x, y := y, w := stripW, h := it.area / stripW }
                :: placeV (it' :: rest') x (y + it.area / stripW) stripW yEnd from rfl]
          simp only [List.map_cons]
          rw [ihtiles]
          simp only [List.map_cons]

/-- Full specification of one committed strip: the emitted rects and the
shrunken region partition the input region; the emitted rects are pairwise
disjoint, disjoint from the region, carry the strip's tiles in order and
their areas sum to the strip area; the region loses exactly the strip area,
stays positive while the strip was proper, and becomes empty when the strip
exhausted the region. -/
lemma layoutStrip_spec (strip : List Item) (r : Rect) (horizontal : Bool)
    (hne : strip ≠ []) (hpos : ∀ it ∈ strip, 0 < it.area)
    (hw : 0 < r.w) (hh : 0 < r.h) (hsle : sumArea strip ≤ r.w * r.h) :
    (∀ p q : ℚ,
      ((∃ pr ∈ (layoutStrip strip r horizontal).1, Rect.mem pr.toRect p q) ∨
        (layoutStrip strip r horizontal).2.mem p q) ↔ r.mem p q) ∧
    pairwiseDisjoint (layoutStrip strip r horizontal).1 ∧
    (∀ pr ∈ (layoutStrip strip r horizontal).1,
      RectDisjoint pr.toRect (layoutStrip strip r horizontal).2) ∧
    rectAreaSum (layoutStrip strip r horizontal).1 = sumArea strip ∧
    (layoutStrip strip r horizontal).1.map (fun pr => pr.tile)
      = strip.map (fun it => it.tile) ∧
    (layoutStrip strip r horizontal).2.w * (layoutStrip strip r horizontal).2.h
      = r.w * r.h - sumArea strip ∧
    (sumArea strip < r.w * r.h →
      0 < (layoutStrip strip r horizontal).2.w ∧ 0 < (layoutStrip strip r horizontal).2.h) ∧
    (sumArea strip = r.w * r.h →
      ∀ p q : ℚ, ¬ (layoutStrip strip r horizontal).2.mem p q) := by
  have hs : 0 < sumArea strip := sumArea_pos strip hne hpos
  have hguard : ¬(sumArea strip ≤ 0 ∨ r.w ≤ 0 ∨ r.h ≤ 0) := by
    push_neg
    exact ⟨hs, hw, hh⟩
  cases horizontal with
  | true =>
      have hH : 0 < sumArea strip / r.w := div_pos hs hw
      have hHle : sumArea strip / r.w ≤ r.h := by
        rw [div_le_iff₀ hw]
        linarith [hsle]
      have hmax : max 0 (r.h - sumArea strip / r.w) = r.h - sumArea strip / r.w :=
        max_eq_right (by linarith)
      have hout : layoutStrip strip r true
          = (placeH strip r.x r.y (sumArea strip / r.w) (r.x + r.w),
             ⟨r.x, r.y + sumArea strip / r.w, r.w, max 0 (r.h - sumArea strip / r.w)⟩) := by
        unfold layoutStrip
        rw [if_neg hguard]
        rfl
      have hsum : r.x + sumArea strip / (sumArea strip / r.w) = r.x + r.w := by
        have h1 : sumArea strip / (sumArea strip / r.w) = r.w := by
          rw [div_div_eq_mul_div, mul_div_assoc, mul_comm, div_mul_cancel₀ _ (ne_of_gt hs)]
        rw [h1]
      obtain ⟨hcov, hdisj, harea, htiles⟩ :=
        placeH_spec strip r.x (y := r.y) hne hH hpos hsum
      rw [hout]
      refine ⟨?_, hdisj, ?_, harea, htiles, ?_, ?_, ?_⟩
      · intro p q
        rw [show (∃ pr ∈ placeH strip r.x r.y (sumArea strip / r.w) (r.x + r.w),
            Rect.mem pr.toRect p q) ↔ _ from hcov p q]
        simp only [Rect.mem, hmax]
        constructor
        · rintro (⟨h1, h2, h3, h4⟩ | ⟨h1, h2, h3, h4⟩)
          · exact ⟨h1, h2, h3, by linarith⟩
          · exact ⟨h1, h2, by linarith, by linarith⟩
        · rintro ⟨h1, h2, h3, h4⟩
          rcases lt_or_le q (r.y + sumArea strip / r.w) with hq | hq
          · exact Or.inl ⟨h1, h2, h3, hq⟩
          · exact Or.inr ⟨h1, h2, hq, by linarith⟩
      · intro pr hpr p q hm1 hm2
        have hband := (hcov p q).mp ⟨pr, hpr, hm1⟩
        simp only [Rect.mem] at hm2
        linarith [hband.2.2.2, hm2.2.2.1]
      · simp only [hmax]
        field_simp
        ring
      · intro hlt
        refine ⟨hw, ?_⟩
        simp only [hmax]
        have hlt2 : sumArea strip / r.w < r.h := by
          rw [div_lt_iff₀ hw]
          linarith
        linarith
      · intro heqa p q
        simp only [Rect.mem, hmax]
        rintro ⟨_, _, h3, h4⟩
        have hrh : sumArea strip / r.w = r.h := by
          rw [div_eq_iff (ne_of_gt hw)]
          linarith [heqa]
        linarith [hrh, h3, h4]
  | false =>
      have hW : 0 < sumArea strip / r.h := div_pos hs hh
      have hWle : sumArea strip / r.h ≤ r.w := by
        rw [div_le_iff₀ hh]
        linarith [hsle]
      have hmax : max 0 (r.w - sumArea strip / r.h) = r.w - sumArea strip / r.h :=
        max_eq_right (by linarith)
      have hout : layoutStrip strip r false
          = (placeV strip r.x r.y (sumArea strip / r.h) (r.y + r.h),
             ⟨r.x + sumArea strip / r.h, r.y, max 0 (r.w - sumArea strip / r.h), r.h⟩) := by
        unfold layoutStrip
        rw [if_neg hguard]
        rfl
      have hsum : r.y + sumArea strip / (sumArea strip / r.h) = r.y + r.h := by
        have h1 : sumArea strip / (sumArea strip / r.h) = r.h := by
          rw [div_div_eq_mul_div, mul_div_assoc, mul_comm, div_mul_cancel₀ _ (ne_of_gt hs)]
        rw [h1]
      obtain ⟨hcov, hdisj, harea, htiles⟩ :=
        placeV_spec strip r.y (x := r.x) hne hW hpos hsum
      rw [hout]
      refine ⟨?_, hdisj, ?_, harea, htiles, ?_, ?_, ?_⟩
      · intro p q
        rw [show (∃ pr ∈ placeV strip r.x r.y (sumArea strip / r.h) (r.y + r.h),
            Rect.mem pr.toRect p q) ↔ _ from hcov p q]
        simp only [Rect.mem, hmax]
        constructor
        · rintro (⟨h1, h2, h3, h4⟩ | ⟨h1, h2, h3, h4⟩)
          · exact ⟨h1, by linarith, h3, h4⟩
          · exact ⟨by linarith, by linarith, h3, h4⟩
        · rintro ⟨h1, h2, h3, h4⟩
          rcases lt_or_le p (r.x + sumArea strip / r.h) with hp | hp
          · exact Or.inl ⟨h1, hp, h3, h4⟩
          · exact Or.inr ⟨hp, by linarith, h3, h4⟩
      · intro pr hpr p q hm1 hm2
        have hband := (hcov p q).mp ⟨pr, hpr, hm1⟩
        simp only [Rect.mem] at hm2
        linarith [hband.2.1, hm2.1]
      · simp only [hmax]
        field_simp
      · intro hlt
        refine ⟨?_, hh⟩
        simp only [hmax]
        have hlt2 : sumArea strip / r.h < r.w := by
          rw [div_lt_iff₀ hh]
          linarith
        linarith
      · intro heqa p q
        simp only [Rect.mem, hmax]
        rintro ⟨h1, h2, _, _⟩
        have hrw : sumArea strip / r.h = r.w := by
          rw [div_eq_iff (ne_of_gt hh)]
          linarith [heqa]
        linarith [hrw, h1, h2]

lemma rectAreaSum_append (a b : List PRect) :
    rectAreaSum (a ++ b) = rectAreaSum a + rectAreaSum b := by
  simp [rectAreaSum]

/-- `layoutRow` with a non-degenerate strip commits via `layoutStrip` and
clears `firstStrip`. -/
lemma layoutRowS_eq (row : List Item) (rect : Rect) (fs : Bool)
    (hpos : 0 < sumArea row) (hw : 0 < rect.w) (hh : 0 < rect.h) :
    layoutRowS row rect fs
      = ((layoutStrip row rect (fs || decide (rect.h ≤ rect.w))).1,
         (layoutStrip row rect (fs || decide (rect.h ≤ rect.w))).2, false) := by
  unfold layoutRowS
  rw [if_neg]
  push_neg
  exact ⟨hpos, hw, hh⟩

/-- The squarify greedy loop partitions the remaining region exactly among
the pending items (current row first): its output covers the region, is
pairwise disjoint, its areas sum to the pending area, and its tiles are the
pending tiles in order. -/
lemma squarifyLoop_spec :
    ∀ (items row : List Item) (rect : Rect) (fs : Bool),
      (∀ it ∈ row ++ items, 0 < it.area) →
      0 < rect.w → 0 < rect.h →
      sumArea (row ++ items) = rect.w * rect.h →
      (∀ p q : ℚ,
        (∃ r ∈ squarifyLoop items row rect fs, Rect.mem r.toRect p q) ↔ rect.mem p q) ∧
      pairwiseDisjoint (squarifyLoop items row rect fs) ∧
      rectAreaSum (squarifyLoop items row rect fs) = sumArea (row ++ items) ∧
      (squarifyLoop items row rect fs).map (fun r => r.tile)
        = (row ++ items).map (fun it => it.tile) := by
  intro items
  induction items with
  | nil =>
      intro row rect fs hpos hw hh hsum
      rw [List.append_nil] at hsum hpos ⊢
      cases row with
      | nil =>
          exfalso
          rw [sumArea_nil] at hsum
          nlinarith [mul_pos hw hh]
      | cons r₀ row' =>
          have hrow : sumArea (r₀ :: row') ≤ rect.w * rect.h := le_of_eq hsum
          have hrpos : 0 < sumArea (r₀ :: row') :=
            sumArea_pos _ (List.cons_ne_nil r₀ row') hpos
          have hloop : squarifyLoop [] (r₀ :: row') rect fs
              = (layoutRowS (r₀ :: row') rect fs).1 := rfl
          obtain ⟨scov, sdisj, sregdisj, sarea, stiles, sregarea, sregpos, sempty⟩ :=
            layoutStrip_spec (r₀ :: row') rect (fs || decide (rect.h ≤ rect.w))
              (List.cons_ne_nil r₀ row') hpos hw hh hrow
          rw [hloop, layoutRowS_eq _ _ _ hrpos hw hh]
          refine ⟨?_, sdisj, sarea, stiles⟩
          intro p q
          constructor
          · intro hex
            exact (scov p q).mp (Or.inl hex)
          · intro hmem
            rcases (scov p q).mpr hmem with hex | hreg
            · exact hex
            · exact absurd hreg (sempty hsum p q)
  | cons it rest ih =>
      intro row rect fs hpos hw hh hsum
      cases row with
      | nil =>
          have hloop : squarifyLoop (it :: rest) [] rect fs
              = squarifyLoop rest [it] rect fs := rfl
          rw [hloop]
          have := ih [it] rect fs (by simpa using hpos) hw hh (by simpa using hsum)
          simpa using this
      | cons r₀ row' =>
          have hrowne : (r₀ :: row') ≠ [] := List.cons_ne_nil r₀ row'
          have hunf : squarifyLoop (it :: rest) (r₀ :: row') rect fs
              = (if (r₀ :: row').isEmpty = true then squarifyLoop rest [it] rect fs
                 else if worst ((r₀ :: row') ++ [it]) (min rect.w rect.h)
                     ≤ worst (r₀ :: row') (min rect.w rect.h) then
                   squarifyLoop rest ((r₀ :: row') ++ [it]) rect fs
                 else
                   (layoutRowS (r₀ :: row') rect fs).1 ++
                     squarifyLoop rest [it] (layoutRowS (r₀ :: row') rect fs).2.1
                       (layoutRowS (r₀ :: row') rect fs).2.2) := rfl
          by_cases hworst :
              worst ((r₀ :: row') ++ [it]) (min rect.w rect.h)
                ≤ worst (r₀ :: row') (min rect.w rect.h)
          · have hloop : squarifyLoop (it :: rest) (r₀ :: row') rect fs
                = squarifyLoop rest ((r₀ :: row') ++ [it]) rect fs := by
              rw [hunf, if_neg (by simp), if_pos hworst]
            rw [hloop]
            have hperm : ((r₀ :: row') ++ [it]) ++ rest = (r₀ :: row') ++ (it :: rest) := by
              rw [List.append_assoc]
              rfl
            have := ih ((r₀ :: row') ++ [it]) rect fs
              (by rw [hperm]; exact hpos) hw hh (by rw [hperm]; exact hsum)
            rw [hperm] at this
            exact this
          · -- flush the committed row, then continue with `it` opening a new row
            have hTailPos : ∀ a ∈ it :: rest, 0 < a.area :=
              fun a ha => hpos a (List.mem_append_right _ ha)
            have hRowPos : ∀ a ∈ r₀ :: row', 0 < a.area :=
              fun a ha => hpos a (List.mem_append_left _ ha)
            have hrpos : 0 < sumArea (r₀ :: row') := sumArea_pos _ hrowne hRowPos
            have htpos : 0 < sumArea (it :: rest) :=
              sumArea_pos _ (List.cons_ne_nil it rest) hTailPos
            have hsum' : sumArea (r₀ :: row') + sumArea (it :: rest) = rect.w * rect.h := by
              rw [← sumArea_append]
              exact hsum
            have hrlt : sumArea (r₀ :: row') < rect.w * rect.h := by linarith
            obtain ⟨scov, sdisj, sregdisj, sarea, stiles, sregarea, sregpos, _⟩ :=
              layoutStrip_spec (r₀ :: row') rect (fs || decide (rect.h ≤ rect.w))
                hrowne hRowPos hw hh (le_of_lt hrlt)
            set out := layoutStrip (r₀ :: row') rect (fs || decide (rect.h ≤ rect.w)) with hout
            have hw' : 0 < out.2.w := (sregpos hrlt).1
            have hh' : 0 < out.2.h := (sregpos hrlt).2
            have hsum2 : sumArea ([it] ++ rest) = out.2.w * out.2.h := by
              have h1 : sumArea ([it] ++ rest) = sumArea (it :: rest) := rfl
              rw [h1, sregarea]
              linarith
            have hloop : squarifyLoop (it :: rest) (r₀ :: row') rect fs
                = out.1 ++ squarifyLoop rest [it] out.2 false := by
              rw [hunf, if_neg (by simp), if_neg hworst, layoutRowS_eq _ _ _ hrpos hw hh]
            obtain ⟨icov, idisj, iarea, itiles⟩ :=
              ih [it] out.2 false
                (fun a ha => hpos a (by
                  rcases List.mem_append.mp ha with h | h
                  · rw [List.mem_singleton] at h
                    subst h
                    exact List.mem_append_right _ (List.mem_cons_self a rest)
                  · exact List.mem_append_right _ (List.mem_cons_of_mem it h)))
                hw' hh' hsum2
            have hiarea : rectAreaSum (squarifyLoop rest [it] out.2 false)
                = sumArea (it :: rest) := iarea
            have hitiles : (squarifyLoop rest [it] out.2 false).map (fun r => r.tile)
                = (it :: rest).map (fun a => a.tile) := itiles
            rw [hloop]
            refine ⟨?_, ?_, ?_, ?_⟩
            · intro p q
              constructor
              · intro hex
                rcases hex with ⟨r, hr, hmem⟩
                rcases List.mem_append.mp hr with h | h
                · exact (scov p q).mp (Or.inl ⟨r, h, hmem⟩)
                · have : out.2.mem p q := (icov p q).mp ⟨r, h, hmem⟩
                  exact (scov p q).mp (Or.inr this)
              · intro hmem
                rcases (scov p q).mpr hmem with ⟨r, hr, hm⟩ | hreg
                · exact ⟨r, List.mem_append_left _ hr, hm⟩
                · rcases (icov p q).mpr hreg with ⟨r, hr, hm⟩
                  exact ⟨r, List.mem_append_right _ hr, hm⟩
            · rw [pairwiseDisjoint, List.pairwise_append]
              refine ⟨sdisj, idisj, ?_⟩
              intro a ha b hb
              intro p q hma hmb
              have hreg : out.2.mem p q := (icov p q).mp ⟨b, hb, hmb⟩
              exact sregdisj a ha p q hma hreg
            · rw [rectAreaSum_append, sarea, hiarea]
              simp only [List.cons_append, sumArea_cons, sumArea_append] at *
              linarith
            · rw [List.map_append, stiles, hitiles]
              simp [List.map_append]

/-- Top-level spec for the squarify partitioner's pixel rect list. -/
lemma squarifyRectsPx_spec (nodes : List Node) (W H : ℚ) (force : Bool)
    (hne : nodes ≠ []) (hpos : ∀ n ∈ nodes, 0 < n.weight) (hW : 0 < W) (hH : 0 < H) :
    coversExactly (squarifyRectsPx nodes W H force) ⟨0, 0, W, H⟩ ∧
    pairwiseDisjoint (squarifyRectsPx nodes W H force) ∧
    rectAreaSum (squarifyRectsPx nodes W H force) = W * H ∧
    ((squarifyRectsPx nodes W H force).map (fun r => r.tile)).Perm
      (nodes.map (fun n => n.tile)) := by
  have hT : 0 < sumWeight nodes := sumWeight_pos nodes hne hpos
  have hguard : ¬(nodes = [] ∨ sumWeight nodes ≤ 0) := by
    push_neg
    exact ⟨hne, hT⟩
  have heq : squarifyRectsPx nodes W H force
      = squarifyLoop (weightedItems nodes W H) [] ⟨0, 0, W, H⟩ force := by
    unfold squarifyRectsPx
    rw [if_neg hguard]
  have hipos : ∀ it ∈ weightedItems nodes W H, 0 < it.area :=
    weightedItems_area_pos nodes W H hW hH hne hpos
  have hitems : weightedItems nodes W H ≠ [] := by
    unfold weightedItems
    simp only [ne_eq, List.map_eq_nil_iff]
    intro hnil
    exact hne (List.Perm.eq_nil ((sortByWeightDesc_perm nodes).symm.trans (hnil ▸ List.Perm.refl _)))
  have hsum : sumArea ([] ++ weightedItems nodes W H) = W * H := by
    rw [List.nil_append]
    exact weightedItems_sumArea nodes W H (ne_of_gt hT)
  obtain ⟨cov, disj, area, tiles⟩ :=
    squarifyLoop_spec (weightedItems nodes W H) [] ⟨0, 0, W, H⟩ force
      (by simpa using hipos) hW hH hsum
  rw [heq]
  refine ⟨cov, disj, ?_, ?_⟩
  · rw [area, List.nil_append]
    exact weightedItems_sumArea nodes W H (ne_of_gt hT)
  · rw [tiles, List.nil_append]
    exact weightedItems_tiles_perm nodes W H

/-- `buildStripGo` returns its accumulator extended by a prefix of the
remaining items. -/
lemma buildStripGo_take (side : ℚ) :
    ∀ (rem strip : List Item),
      ∃ k ≤ rem.length, buildStripGo side strip rem = strip ++ rem.take k := by
  intro rem
  induction rem with
  | nil => intro strip; exact ⟨0, by simp, by simp [buildStripGo]⟩
  | cons it rest ih =>
      intro strip
      unfold buildStripGo
      split
      · obtain ⟨k, hk, heq⟩ := ih (strip ++ [it])
        refine ⟨k + 1, by simpa using hk, ?_⟩
        rw [heq, List.append_assoc]
        rfl
      · exact ⟨0, by simp, by simp⟩

/-- `buildStrip` returns a nonempty prefix of the remaining items. -/
lemma buildStrip_take (remaining : List Item) (side : ℚ) (hne : remaining ≠ []) :
    ∃ k, 1 ≤ k ∧ k ≤ remaining.length ∧ buildStrip remaining side = remaining.take k := by
  cases remaining with
  | nil => exact absurd rfl hne
  | cons it rest =>
      unfold buildStrip
      obtain ⟨k, hk, heq⟩ := buildStripGo_take side rest [it]
      exact ⟨k + 1, by omega, by simpa using Nat.succ_le_succ hk, by simp [heq]⟩

lemma cryptoLoop_nil (cfg : Cfg) (fuel : ℕ) (rect : Rect) :
    cryptoLoop cfg fuel [] rect = [] := by
  cases fuel with
  | zero => rfl
  | succ f => rfl

/-- The crypto strip loop partitions the remaining region exactly among the
remaining items, as long as the fuel (the `safeGuard` budget) covers the
item count — each iteration commits at least one item. -/
lemma cryptoLoop_spec (cfg : Cfg) :
    ∀ (fuel : ℕ) (remaining : List Item) (rect : Rect),
      remaining ≠ [] → (∀ it ∈ remaining, 0 < it.area) →
      0 < rect.w → 0 < rect.h →
      sumArea remaining = rect.w * rect.h →
      remaining.length ≤ fuel →
      (∀ p q : ℚ,
        (∃ r ∈ cryptoLoop cfg fuel remaining rect, Rect.mem r.toRect p q) ↔ rect.mem p q) ∧
      pairwiseDisjoint (cryptoLoop cfg fuel remaining rect) ∧
      rectAreaSum (cryptoLoop cfg fuel remaining rect) = sumArea remaining ∧
      (cryptoLoop cfg fuel remaining rect).map (fun r => r.tile)
        = remaining.map (fun it => it.tile) := by
  intro fuel
  induction fuel with
  | zero =>
      intro remaining rect hne _ _ _ _ hlen
      exfalso
      cases remaining with
      | nil => exact hne rfl
      | cons a b => simp at hlen
  | succ fuel ih =>
      intro remaining rect hne hpos hw hh hsum hlen
      cases remaining with
      | nil => exact absurd rfl hne
      | cons it rest =>
          have hguard : ¬(rect.w ≤ 0 ∨ rect.h ≤ 0) := by
            push_neg
            exact ⟨hw, hh⟩
          obtain ⟨k, hk1, hkle, hbs⟩ :=
            buildStrip_take (it :: rest) (min rect.w rect.h) (List.cons_ne_nil it rest)
          have hstrip :
              (if (buildStrip (it :: rest) (min rect.w rect.h)).isEmpty then [it]
                else buildStrip (it :: rest) (min rect.w rect.h)) = (it :: rest).take k := by
            rw [hbs]
            have : ((it :: rest).take k).isEmpty = false := by
              obtain ⟨k', rfl⟩ : ∃ k', k = k' + 1 := ⟨k - 1, by omega⟩
              simp [List.take_succ_cons]
            rw [this]
            simp
          have hunf : cryptoLoop cfg (fuel + 1) (it :: rest) rect
              = (layoutStrip
                  (if (buildStrip (it :: rest) (min rect.w rect.h)).isEmpty then [it]
                    else buildStrip (it :: rest) (min rect.w rect.h)) rect
                  (chooseHorizontal cfg
                    (if (buildStrip (it :: rest) (min rect.w rect.h)).isEmpty then [it]
                      else buildStrip (it :: rest) (min rect.w rect.h)) rect)).1 ++
                cryptoLoop cfg fuel
                  ((it :: rest).drop
                    (if (buildStrip (it :: rest) (min rect.w rect.h)).isEmpty then [it]
                      else buildStrip (it :: rest) (min rect.w rect.h)).length)
                  (layoutStrip
                    (if (buildStrip (it :: rest) (min rect.w rect.h)).isEmpty then [it]
                      else buildStrip (it :: rest) (min rect.w rect.h)) rect
                    (chooseHorizontal cfg
                      (if (buildStrip (it :: rest) (min rect.w rect.h)).isEmpty then [it]
                        else buildStrip (it :: rest) (min rect.w rect.h)) rect)).2 := by
            conv_lhs => rw [cryptoLoop]
            rw [if_neg hguard]
          rw [hstrip] at hunf
          set tk := (it :: rest).take k with htk
          set dk := (it :: rest).drop k with hdk
          have htkdk : tk ++ dk = it :: rest := List.take_append_drop k (it :: rest)
          have htklen : tk.length = k := by
            rw [htk, List.length_take]
            omega
          have htkne : tk ≠ [] := by
            obtain ⟨k', rfl⟩ : ∃ k', k = k' + 1 := ⟨k - 1, by omega⟩
            rw [htk]
            simp [List.take_succ_cons]
          have htkpos : ∀ a ∈ tk, 0 < a.area :=
            fun a ha => hpos a (htkdk ▸ List.mem_append_left _ ha)
          have hdkpos : ∀ a ∈ dk, 0 < a.area :=
            fun a ha => hpos a (htkdk ▸ List.mem_append_right _ ha)
          have hsumsplit : sumArea tk + sumArea dk = rect.w * rect.h := by
            rw [← sumArea_append, htkdk]
            exact hsum
          have hdknn : 0 ≤ sumArea dk := sumArea_nonneg dk hdkpos
          have htkle : sumArea tk ≤ rect.w * rect.h := by linarith
          rw [hunf, htklen]
          obtain ⟨scov, sdisj, sregdisj, sarea, stiles, sregarea, sregpos, sempty⟩ :=
            layoutStrip_spec tk rect (chooseHorizontal cfg tk rect) htkne htkpos hw hh htkle
          set out := layoutStrip tk rect (chooseHorizontal cfg tk rect) with hout
          cases hdkcase : dk with
          | nil =>
              have htkall : sumArea tk = rect.w * rect.h := by
                rw [hdkcase, sumArea_nil] at hsumsplit
                linarith
              have htkeq : tk = it :: rest := by
                rw [← htkdk, hdkcase, List.append_nil]
              rw [← hdk, hdkcase, cryptoLoop_nil, List.append_nil]
              refine ⟨?_, sdisj, ?_, ?_⟩
              · intro p q
                constructor
                · intro hex
                  exact (scov p q).mp (Or.inl hex)
                · intro hmem
                  rcases (scov p q).mpr hmem with hex | hreg
                  · exact hex
                  · exact absurd hreg (sempty htkall p q)
              · rw [sarea, htkeq]
              · rw [stiles, htkeq]
          | cons d₀ d' =>
              have hdkne : dk ≠ [] := by rw [hdkcase]; exact List.cons_ne_nil d₀ d'
              have hdkpos' : 0 < sumArea dk := sumArea_pos dk hdkne hdkpos
              have htklt : sumArea tk < rect.w * rect.h := by linarith
              have hw' : 0 < out.2.w := (sregpos htklt).1
              have hh' : 0 < out.2.h := (sregpos htklt).2
              have hsum2 : sumArea dk = out.2.w * out.2.h := by
                rw [sregarea]
                linarith
              have hlen2 : dk.length ≤ fuel := by
                rw [hdk, List.length_drop]
                simp only [List.length_cons] at hlen ⊢
                omega
              obtain ⟨icov, idisj, iarea, itiles⟩ :=
                ih dk out.2 hdkne hdkpos hw' hh' hsum2 hlen2
              rw [← hdk]
              refine ⟨?_, ?_, ?_, ?_⟩
              · intro p q
                constructor
                · intro hex
                  rcases hex with ⟨r, hr, hmem⟩
                  rcases List.mem_append.mp hr with h | h
                  · exact (scov p q).mp (Or.inl ⟨r, h, hmem⟩)
                  · have : out.2.mem p q := (icov p q).mp ⟨r, h, hmem⟩
                    exact (scov p q).mp (Or.inr this)
                · intro hmem
                  rcases (scov p q).mpr hmem with ⟨r, hr, hm⟩ | hreg
                  · exact ⟨r, List.mem_append_left _ hr, hm⟩
                  · rcases (icov p q).mpr hreg with ⟨r, hr, hm⟩
                    exact ⟨r, List.mem_append_right _ hr, hm⟩
              · rw [pairwiseDisjoint, List.pairwise_append]
                refine ⟨sdisj, idisj, ?_⟩
                intro a ha b hb p q hma hmb
                have hreg : out.2.mem p q := (icov p q).mp ⟨b, hb, hmb⟩
                exact sregdisj a ha p q hma hreg
              · rw [rectAreaSum_append, sarea, iarea, ← sumArea_append, htkdk]
              · rw [List.map_append, stiles, itiles, ← List.map_append, htkdk]

lemma sumArea_perm {l₁ l₂ : List Item} (h : l₁.Perm l₂) : sumArea l₁ = sumArea l₂ := by
  rw [sumArea_eq_mapSum, sumArea_eq_mapSum]
  exact (h.map _).sum_eq

lemma weightedItems_length (nodes : List Node) (W H : ℚ) :
    (weightedItems nodes W H).length = nodes.length := by
  unfold weightedItems
  rw [List.length_map]
  exact (sortByWeightDesc_perm nodes).length_eq

/-- If no symbol matches, the pinned extraction finds nothing. -/
lemma extractPinned_none (s : String) :
    ∀ l : List Item, (∀ it ∈ l, it.tile.symbol.toUpper ≠ s) → extractPinned s l = none := by
  intro l
  induction l with
  | nil => intro _; rfl
  | cons it tail ih =>
      intro h
      unfold extractPinned
      rw [if_neg (h it (List.mem_cons_self it tail))]
      rw [ih (fun a ha => h a (List.mem_cons_of_mem it ha))]

/-- What a successful pinned extraction returns: the first matching item,
with the rest of the list (order preserved) — so putting it back in front is
a permutation of the input. -/
lemma extractPinned_some_spec (s : String) :
    ∀ (l : List Item) (b : Item) (rest' : List Item),
      extractPinned s l = some (b, rest') →
      b.tile.symbol.toUpper = s ∧ (b :: rest').Perm l ∧ rest'.length + 1 = l.length := by
  intro l
  induction l with
  | nil => intro b rest' h; exact absurd h (by simp [extractPinned])
  | cons it tail ih =>
      intro b rest' h
      unfold extractPinned at h
      by_cases hit : it.tile.symbol.toUpper = s
      · rw [if_pos hit] at h
        injection h with h'
        injection h' with h1 h2
        subst h1
        subst h2
        exact ⟨hit, List.Perm.refl _, rfl⟩
      · rw [if_neg hit] at h
        cases hrec : extractPinned s tail with
        | none => rw [hrec] at h; exact absurd h (by simp)
        | some pr =>
            rw [hrec] at h
            rcases pr with ⟨b', r'⟩
            injection h with h'
            injection h' with h1 h2
            subst h1
            subst h2
            obtain ⟨hm, hp, hl⟩ := ih b' r' hrec
            refine ⟨hm, ?_, by simpa using hl⟩
            exact (List.Perm.swap it b' r').trans (List.Perm.cons it hp)

/-- If some symbol matches, the pinned extraction succeeds. -/
lemma extractPinned_of_mem (s : String) :
    ∀ l : List Item, (∃ it ∈ l, it.tile.symbol.toUpper = s) →
      ∃ b rest', extractPinned s l = some (b, rest') := by
  intro l
  induction l with
  | nil => rintro ⟨it, hit, _⟩; exact absurd hit (List.not_mem_nil it)
  | cons it tail ih =>
      rintro ⟨a, ha, hmatch⟩
      by_cases hit : it.tile.symbol.toUpper = s
      · exact ⟨it, tail, by unfold extractPinned; rw [if_pos hit]⟩
      · have hatail : a ∈ tail := by
          rcases List.mem_cons.mp ha with rfl | h
          · exact absurd hmatch hit
          · exact h
        obtain ⟨b, rest', hrec⟩ := ih ⟨a, hatail, hmatch⟩
        refine ⟨b, it :: rest', ?_⟩
        unfold extractPinned
        rw [if_neg hit, hrec]

/-- Top-level spec for the crypto partitioner's pixel rect list, under the
safeguard bound (at most 300 nodes, so the 300-iteration guard never
truncates). -/
lemma cryptoRectsPx_spec (nodes : List Node) (W H : ℚ) (cfg : Cfg)
    (hne : nodes ≠ []) (hpos : ∀ n ∈ nodes, 0 < n.weight) (hW : 0 < W) (hH : 0 < H)
    (hlen : nodes.length ≤ 300) :
    coversExactly (cryptoRectsPx nodes W H cfg) ⟨0, 0, W, H⟩ ∧
    pairwiseDisjoint (cryptoRectsPx nodes W H cfg) ∧
    rectAreaSum (cryptoRectsPx nodes W H cfg) = W * H ∧
    ((cryptoRectsPx nodes W H cfg).map (fun r => r.tile)).Perm
      (nodes.map (fun n => n.tile)) := by
  have hT : 0 < sumWeight nodes := sumWeight_pos nodes hne hpos
  have hguard : ¬(nodes = [] ∨ sumWeight nodes ≤ 0) := by
    push_neg
    exact ⟨hne, hT⟩
  have hipos : ∀ it ∈ weightedItems nodes W H, 0 < it.area :=
    weightedItems_area_pos nodes W H hW hH hne hpos
  have hilen : (weightedItems nodes W H).length = nodes.length := weightedItems_length nodes W H
  have hitemsne : weightedItems nodes W H ≠ [] := by
    intro hnil
    rw [hnil] at hilen
    exact hne (List.length_eq_zero.mp hilen.symm)
  have hiArea : sumArea (weightedItems nodes W H) = W * H :=
    weightedItems_sumArea nodes W H (ne_of_gt hT)
  have hitiles := weightedItems_tiles_perm nodes W H
  -- case analysis on the pinned-top step
  rcases hpin : cfg.forceTopFullWidthSymbol with _ | s
  case none =>
    have hre : cryptoRectsPx nodes W H cfg
        = [] ++ cryptoLoop cfg 300 (weightedItems nodes W H) ⟨0, 0, W, H⟩ := by
      unfold cryptoRectsPx
      rw [if_neg hguard]
      simp only [hpin]
      rw [if_neg]
      push_neg
      exact ⟨by simpa using hW, by simpa using hH, hitemsne⟩
    rw [hre, List.nil_append]
    obtain ⟨cov, disj, area, tiles⟩ :=
      cryptoLoop_spec cfg 300 (weightedItems nodes W H) ⟨0, 0, W, H⟩
        hitemsne hipos hW hH hiArea (by omega)
    refine ⟨cov, disj, ?_, ?_⟩
    · rw [area, hiArea]
    · rw [tiles]
      exact hitiles
  case some =>
    rcases hext : extractPinned s (weightedItems nodes W H) with _ | ⟨btc, items'⟩
    case none =>
      have hre : cryptoRectsPx nodes W H cfg
          = [] ++ cryptoLoop cfg 300 (weightedItems nodes W H) ⟨0, 0, W, H⟩ := by
        unfold cryptoRectsPx
        rw [if_neg hguard]
        simp only [hpin, hext]
        rw [if_neg]
        push_neg
        exact ⟨by simpa using hW, by simpa using hH, hitemsne⟩
      rw [hre, List.nil_append]
      obtain ⟨cov, disj, area, tiles⟩ :=
        cryptoLoop_spec cfg 300 (weightedItems nodes W H) ⟨0, 0, W, H⟩
          hitemsne hipos hW hH hiArea (by omega)
      refine ⟨cov, disj, ?_, ?_⟩
      · rw [area, hiArea]
      · rw [tiles]
        exact hitiles
    case some =>
      obtain ⟨hmatch, hperm, hlen'⟩ := extractPinned_some_spec s _ btc items' hext
      have hbmem : btc ∈ weightedItems nodes W H :=
        hperm.subset (List.mem_cons_self btc items')
      have hbpos : 0 < btc.area := hipos btc hbmem
      have hsumsplit : btc.area + sumArea items' = W * H := by
        have h2 := sumArea_perm hperm
        rw [sumArea_cons] at h2
        rw [h2]
        exact hiArea
      have hipos' : ∀ it ∈ items', 0 < it.area :=
        fun it hit => hipos it (hperm.subset (List.mem_cons_of_mem btc hit))
      have hbtcH : (if 0 < W then min H (btc.area / W) else H) = min H (btc.area / W) :=
        if_pos hW
      cases items' with
      | nil =>
          have hba : btc.area = W * H := by
            rw [sumArea_nil] at hsumsplit
            linarith
          have hdiv : btc.area / W = H := by
            rw [hba, mul_comm, mul_div_assoc, div_self (ne_of_gt hW), mul_one]
          have hminH : min H (btc.area / W) = H := by rw [hdiv, min_self]
          have hre : cryptoRectsPx nodes W H cfg
              = [{ tile := btc.tile, x := 0, y := 0, w := W,
                   h := if 0 < W then min H (btc.area / W) else H }] := by
            unfold cryptoRectsPx
            rw [if_neg hguard]
            simp only [hpin, hext]
            rw [if_pos (Or.inr (Or.inr trivial))]
          rw [hre, hbtcH, hminH]
          refine ⟨?_, ?_, ?_, ?_⟩
          · intro p q
            constructor
            · rintro ⟨r, hr, hm⟩
              rw [List.mem_singleton] at hr
              subst hr
              exact hm
            · intro hm
              exact ⟨_, List.mem_singleton_self _, hm⟩
          · simp [pairwiseDisjoint]
          · simp [rectAreaSum]
          · have h1 : ([{ tile := btc.tile, x := 0, y := 0, w := W, h := H }] :
                List PRect).map (fun r => r.tile) = [btc].map (fun it => it.tile) := rfl
            rw [h1]
            exact (hperm.map (fun it => it.tile)).trans hitiles
      | cons i₀ irest =>
          have hspos : 0 < sumArea (i₀ :: irest) :=
            sumArea_pos _ (List.cons_ne_nil i₀ irest) hipos'
          have hblt : btc.area < W * H := by linarith
          have hbH : btc.area / W < H := by
            rw [div_lt_iff₀ hW]
            have hc : W * H = H * W := mul_comm W H
            linarith
          have hbHpos : 0 < btc.area / W := div_pos hbpos hW
          have hminb : min H (btc.area / W) = btc.area / W := min_eq_right (le_of_lt hbH)
          have hre : cryptoRectsPx nodes W H cfg
              = [{ tile := btc.tile, x := 0, y := 0, w := W,
                   h := if 0 < W then min H (btc.area / W) else H }] ++
                cryptoLoop cfg 300 (i₀ :: irest)
                  ⟨0, 0 + (if 0 < W then min H (btc.area / W) else H), W,
                   max 0 (H - (if 0 < W then min H (btc.area / W) else H))⟩ := by
            unfold cryptoRectsPx
            rw [if_neg hguard]
            simp only [hpin, hext]
            rw [if_neg]
            push_neg
            refine ⟨by simpa using hW, ?_, List.cons_ne_nil i₀ irest⟩
            rw [hbtcH, hminb]
            have h3 : (0:ℚ) < H - btc.area / W := by linarith
            exact lt_of_lt_of_le h3 (le_max_right 0 _)
          rw [hre, hbtcH, hminb] at *
          have hmax2 : max 0 (H - btc.area / W) = H - btc.area / W :=
            max_eq_right (by linarith)
          rw [hmax2] at *
          have hsum2 : sumArea (i₀ :: irest) = W * (H - btc.area / W) := by
            have hWa : W * (btc.area / W) = btc.area := by
              rw [mul_comm, div_mul_cancel₀ _ (ne_of_gt hW)]
            nlinarith [hsumsplit, hWa]
          have hh2 : (0:ℚ) < H - btc.area / W := by linarith
          have hlen2 : (i₀ :: irest).length ≤ 300 := by
            rw [hilen] at hlen'
            omega
          obtain ⟨icov, idisj, iarea, itiles⟩ :=
            cryptoLoop_spec cfg 300 (i₀ :: irest)
              ⟨0, 0 + btc.area / W, W, H - btc.area / W⟩
              (List.cons_ne_nil i₀ irest) hipos' hW hh2
              (by simpa using hsum2) hlen2
          refine ⟨?_, ?_, ?_, ?_⟩
          · intro p q
            constructor
            · rintro ⟨r, hr, hm⟩
              rcases List.mem_append.mp hr with h | h
              · rw [List.mem_singleton] at h
                subst h
                simp only [Rect.mem, PRect.toRect] at hm ⊢
                exact ⟨hm.1, hm.2.1, hm.2.2.1, by linarith [hm.2.2.2, hbH]⟩
              · have hreg := (icov p q).mp ⟨r, h, hm⟩
                simp only [Rect.mem] at hreg ⊢
                exact ⟨hreg.1, hreg.2.1, by linarith [hreg.2.2.1, hbHpos], by
                  linarith [hreg.2.2.2]⟩
            · intro hm
              simp only [Rect.mem] at hm
              rcases lt_or_le q (btc.area / W) with hq | hq
              · refine ⟨_, List.mem_append_left _ (List.mem_singleton_self _), ?_⟩
                simp only [Rect.mem, PRect.toRect]
                exact ⟨hm.1, hm.2.1, hm.2.2.1, by linarith⟩
              · have : Rect.mem ⟨0, 0 + btc.area / W, W, H - btc.area / W⟩ p q := by
                  simp only [Rect.mem]
                  exact ⟨hm.1, hm.2.1, by linarith, by linarith [hm.2.2.2]⟩
                rcases (icov p q).mpr this with ⟨r, hr, hmr⟩
                exact ⟨r, List.mem_append_right _ hr, hmr⟩
          · rw [pairwiseDisjoint, List.pairwise_append]
            refine ⟨by simp [pairwiseDisjoint], idisj, ?_⟩
            intro a ha b hb p q hma hmb
            rw [List.mem_singleton] at ha
            subst ha
            have hreg := (icov p q).mp ⟨b, hb, hmb⟩
            simp only [Rect.mem, PRect.toRect] at hma hreg
            linarith [hma.2.2.2, hreg.2.2.1]
          · rw [rectAreaSum_append, iarea, hsum2]
            simp only [rectAreaSum, List.map_cons, List.map_nil, List.sum_cons, List.sum_nil]
            ring
          · rw [List.map_append, itiles]
            have h1 : ([{ tile := btc.tile, x := 0, y := 0, w := W, h := btc.area / W }] :
                List PRect).map (fun r => r.tile) = [btc.tile] := rfl
            rw [h1]
            exact (hperm.map (fun it => it.tile)).trans hitiles

/-- With a degenerate region the squarify loop emits nothing: `layoutRow`'s
guard blocks every commit and the region never changes. -/
lemma squarifyLoop_degenerate :
    ∀ (items row : List Item) (rect : Rect) (fs : Bool),
      rect.w ≤ 0 ∨ rect.h ≤ 0 → squarifyLoop items row rect fs = [] := by
  intro items
  induction items with
  | nil =>
      intro row rect fs hdeg
      have hunf : squarifyLoop [] row rect fs
          = if row.isEmpty = true then [] else (layoutRowS row rect fs).1 := rfl
      rw [hunf]
      cases hrow : row.isEmpty with
      | true => rw [if_pos rfl]
      | false =>
          rw [if_neg Bool.false_ne_true]
          unfold layoutRowS
          rw [if_pos (Or.inr hdeg)]
  | cons it rest ih =>
      intro row rect fs hdeg
      have hunf : squarifyLoop (it :: rest) row rect fs
          = if row.isEmpty = true then squarifyLoop rest [it] rect fs
            else if worst (row ++ [it]) (min rect.w rect.h) ≤ worst row (min rect.w rect.h)
              then squarifyLoop rest (row ++ [it]) rect fs
              else (layoutRowS row rect fs).1 ++
                squarifyLoop rest [it] (layoutRowS row rect fs).2.1
                  (layoutRowS row rect fs).2.2 := rfl
      rw [hunf]
      have hrowS : layoutRowS row rect fs = ([], rect, fs) := by
        unfold layoutRowS
        rw [if_pos (Or.inr hdeg)]
      cases hrow : row.isEmpty with
      | true =>
          rw [if_pos rfl]
          exact ih [it] rect fs hdeg
      | false =>
          rw [if_neg Bool.false_ne_true]
          by_cases hworst :
              worst (row ++ [it]) (min rect.w rect.h) ≤ worst row (min rect.w rect.h)
          · rw [if_pos hworst]
            exact ih (row ++ [it]) rect fs hdeg
          · rw [if_neg hworst, hrowS]
            simpa using ih [it] rect fs hdeg

/-- C9, amended. An empty tile list yields the empty list for both
partitioners, and a container with a non-positive dimension yields the
empty list for the squarify partitioner always, and for the crypto
partitioner whenever no input tile matches the pinned-top symbol
(`claim9_cex` shows a matching pinned tile still emits its rect even in a
zero-width container). Both are total functions — no exception path exists
in the model. -/
theorem claim9_degenerate :
    ∀ (nodes : List Node) (W H : ℚ) (force : Bool) (cfg : Cfg),
      (nodes = [] →
        computeSquarifyTreemap nodes W H force = [] ∧ computeCryptoTreemap nodes W H cfg = []) ∧
      (W ≤ 0 ∨ H ≤ 0 →
        computeSquarifyTreemap nodes W H force = [] ∧
        ((∀ s, cfg.forceTopFullWidthSymbol = some s →
            ∀ n ∈ nodes, n.tile.symbol.toUpper ≠ s) →
          computeCryptoTreemap nodes W H cfg = [])) := by
  intro nodes W H force cfg
  constructor
  · rintro rfl
    constructor
    · unfold computeSquarifyTreemap squarifyRectsPx
      rw [if_pos (Or.inl rfl)]
      rfl
    · unfold computeCryptoTreemap cryptoRectsPx
      rw [if_pos (Or.inl rfl)]
      rfl
  · intro hdeg
    constructor
    · unfold computeSquarifyTreemap squarifyRectsPx
      by_cases hg : nodes = [] ∨ sumWeight nodes ≤ 0
      · rw [if_pos hg]
        rfl
      · rw [if_neg hg]
        rw [squarifyLoop_degenerate _ _ _ _ (by simpa using hdeg)]
        rfl
    · intro hnopin
      unfold computeCryptoTreemap cryptoRectsPx
      by_cases hg : nodes = [] ∨ sumWeight nodes ≤ 0
      · rw [if_pos hg]
        rfl
      · rw [if_neg hg]
        have hnomatch : ∀ s, cfg.forceTopFullWidthSymbol = some s →
            extractPinned s (weightedItems nodes W H) = none := by
          intro s hs
          apply extractPinned_none
          intro it hit
          unfold weightedItems at hit
          rcases List.mem_map.mp hit with ⟨n, hn, rfl⟩
          exact hnopin s hs n ((sortByWeightDesc_perm nodes).subset hn)
        rcases hpin : cfg.forceTopFullWidthSymbol with _ | s
        · simp only [hpin]
          rw [if_pos]
          · rfl
          · rcases hdeg with h | h
            · exact Or.inl (by simpa using h)
            · exact Or.inr (Or.inl (by simpa using h))
        · simp only [hpin, hnomatch s hpin]
          rw [if_pos]
          · rfl
          · rcases hdeg with h | h
            · exact Or.inl (by simpa using h)
            · exact Or.inr (Or.inl (by simpa using h))

/-- C1, amended. For positive weights and a positive container, the pixel
rects emitted by a squarify layout call are pairwise non-overlapping and
their union covers exactly the container (as half-open boxes — no gaps, no
overlap), so their areas sum exactly to the container area (the
floating-point epsilon of the claim is exact equality in this rational
model; the last item of each strip absorbing the remainder is what makes
the cover exact). The same holds for a crypto layout call provided the
300-iteration safeguard does not truncate, e.g. for at most 300 tiles —
`claim1_cex` shows the sum property fails at 301 single-strip tiles. -/
theorem claim1_partition :
    ∀ (nodes : List Node) (W H : ℚ) (force : Bool) (cfg : Cfg),
      nodes ≠ [] → (∀ n ∈ nodes, 0 < n.weight) → 0 < W → 0 < H →
      (coversExactly (squarifyRectsPx nodes W H force) ⟨0, 0, W, H⟩ ∧
        pairwiseDisjoint (squarifyRectsPx nodes W H force) ∧
        rectAreaSum (squarifyRectsPx nodes W H force) = W * H) ∧
      (nodes.length ≤ 300 →
        coversExactly (cryptoRectsPx nodes W H cfg) ⟨0, 0, W, H⟩ ∧
        pairwiseDisjoint (cryptoRectsPx nodes W H cfg) ∧
        rectAreaSum (cryptoRectsPx nodes W H cfg) = W * H) := by
  intro nodes W H force cfg hne hpos hW hH
  constructor
  · obtain ⟨cov, disj, area, _⟩ := squarifyRectsPx_spec nodes W H force hne hpos hW hH
    exact ⟨cov, disj, area⟩
  · intro hlen
    obtain ⟨cov, disj, area, _⟩ := cryptoRectsPx_spec nodes W H cfg hne hpos hW hH hlen
    exact ⟨cov, disj, area⟩

/-- Witness for C1 (amended) at the concrete A/B/C scenario. -/
theorem claim1_witness :
    (nodesABC ≠ [] ∧ (∀ n ∈ nodesABC, 0 < n.weight) ∧ (0:ℚ) < 300 ∧ (0:ℚ) < 100) ∧
    ((coversExactly (squarifyRectsPx nodesABC 300 100 true) ⟨0, 0, 300, 100⟩ ∧
        pairwiseDisjoint (squarifyRectsPx nodesABC 300 100 true) ∧
        rectAreaSum (squarifyRectsPx nodesABC 300 100 true) = 300 * 100) ∧
      (nodesABC.length ≤ 300 →
        coversExactly (cryptoRectsPx nodesABC 300 100 cfgPlain) ⟨0, 0, 300, 100⟩ ∧
        pairwiseDisjoint (cryptoRectsPx nodesABC 300 100 cfgPlain) ∧
        rectAreaSum (cryptoRectsPx nodesABC 300 100 cfgPlain) = 300 * 100)) :=
  ⟨⟨by with_unfolding_all decide, by with_unfolding_all decide,
    by norm_num, by norm_num⟩,
   claim1_partition nodesABC 300 100 true cfgPlain
     (by with_unfolding_all decide) (by with_unfolding_all decide)
     (by norm_num) (by norm_num)⟩

/-- C10, amended. With strictly positive weights and a positive container,
the squarify partitioner emits exactly one rect per input node (the output
tiles are a permutation of the input tiles — nothing dropped, nothing
duplicated), and so does the crypto partitioner provided its 300-iteration
safeguard does not truncate, e.g. for at most 300 nodes; `claim10_cex`
shows a 301-node input where the crypto loop drops the last node. -/
theorem claim10_one_rect_per_node :
    ∀ (nodes : List Node) (W H : ℚ) (force : Bool) (cfg : Cfg),
      (∀ n ∈ nodes, 0 < n.weight) → 0 < W → 0 < H →
      ((squarifyRectsPx nodes W H force).map (fun r => r.tile)).Perm
        (nodes.map (fun n => n.tile)) ∧
      (nodes.length ≤ 300 →
        ((cryptoRectsPx nodes W H cfg).map (fun r => r.tile)).Perm
          (nodes.map (fun n => n.tile))) := by
  intro nodes W H force cfg hpos hW hH
  by_cases hne : nodes = []
  · subst hne
    constructor
    · unfold squarifyRectsPx
      rw [if_pos (Or.inl rfl)]
      exact List.Perm.refl _
    · intro _
      unfold cryptoRectsPx
      rw [if_pos (Or.inl rfl)]
      exact List.Perm.refl _
  · constructor
    · exact (squarifyRectsPx_spec nodes W H force hne hpos hW hH).2.2.2
    · intro hlen
      exact (cryptoRectsPx_spec nodes W H cfg hne hpos hW hH hlen).2.2.2

/-- Witness for C10 (amended) at the concrete A/B/C scenario. -/
theorem claim10_witness :
    ((∀ n ∈ nodesABC, 0 < n.weight) ∧ (0:ℚ) < 300 ∧ (0:ℚ) < 100) ∧
    ((squarifyRectsPx nodesABC 300 100 true).map (fun r => r.tile)).Perm
      (nodesABC.map (fun n => n.tile)) ∧
    (nodesABC.length ≤ 300 →
      ((cryptoRectsPx nodesABC 300 100 cfgPlain).map (fun r => r.tile)).Perm
        (nodesABC.map (fun n => n.tile))) :=
  ⟨⟨by with_unfolding_all decide, by norm_num, by norm_num⟩,
   claim10_one_rect_per_node nodesABC 300 100 true cfgPlain
     (by with_unfolding_all decide) (by norm_num) (by norm_num)⟩

/-- C6 (confirmed): when the pinned-top symbol matches some input tile, the
first emitted rect of the crypto layout is that tile's: `x = 0`, `y = 0`,
width the full container width, and height `min(containerHeight,
proportionalArea / width)`. This holds for every config (in particular
whatever the priority set and thickness thresholds are), which is the
claimed exemption of the pinned rect from the thin-strip constraint
checks: the pinned strip is committed before the governed loop runs. -/
theorem claim6_pinned_top :
    ∀ (nodes : List Node) (W H : ℚ) (cfg : Cfg) (s : String),
      cfg.forceTopFullWidthSymbol = some s →
      (∃ n ∈ nodes, n.tile.symbol.toUpper = s) →
      (∀ n ∈ nodes, 0 < n.weight) →
      0 < W →
      ∃ b rest', extractPinned s (weightedItems nodes W H) = some (b, rest') ∧
        b.tile.symbol.toUpper = s ∧
        (cryptoRectsPx nodes W H cfg).head? =
          some { tile := b.tile, x := 0, y := 0, w := W, h := min H (b.area / W) } := by
  intro nodes W H cfg s hpin hex hpos hW
  have hne : nodes ≠ [] := by
    rintro rfl
    rcases hex with ⟨n, hn, _⟩
    exact List.not_mem_nil n hn
  have hT : 0 < sumWeight nodes := sumWeight_pos nodes hne hpos
  have hguard : ¬(nodes = [] ∨ sumWeight nodes ≤ 0) := by
    push_neg
    exact ⟨hne, hT⟩
  have hexi : ∃ it ∈ weightedItems nodes W H, it.tile.symbol.toUpper = s := by
    rcases hex with ⟨n, hn, hns⟩
    have hn' : n ∈ sortByWeightDesc nodes := (sortByWeightDesc_perm nodes).mem_iff.mpr hn
    exact ⟨{ tile := n.tile, area := n.weight / sumWeight nodes * (W * H) },
      List.mem_map.mpr ⟨n, hn', rfl⟩, hns⟩
  obtain ⟨b, rest', hext⟩ := extractPinned_of_mem s _ hexi
  obtain ⟨hmatch, _, _⟩ := extractPinned_some_spec s _ b rest' hext
  refine ⟨b, rest', hext, hmatch, ?_⟩
  have hbtcH : (if 0 < W then min H (b.area / W) else H) = min H (b.area / W) := if_pos hW
  have hre : cryptoRectsPx nodes W H cfg
      = (if W ≤ 0 ∨ (0 ⊔ (H - (if 0 < W then min H (b.area / W) else H)) : ℚ) ≤ 0 ∨ rest' = []
         then [{ tile := b.tile, x := 0, y := 0, w := W,
                 h := if 0 < W then min H (b.area / W) else H }]
         else [{ tile := b.tile, x := 0, y := 0, w := W,
                 h := if 0 < W then min H (b.area / W) else H }] ++
           cryptoLoop cfg 300 rest'
             ⟨0, 0 + (if 0 < W then min H (b.area / W) else H), W,
              max 0 (H - (if 0 < W then min H (b.area / W) else H))⟩) := by
    unfold cryptoRectsPx
    rw [if_neg hguard]
    simp only [hpin, hext]
  rw [hre, hbtcH]
  by_cases hc : W ≤ 0 ∨ (0 ⊔ (H - min H (b.area / W)) : ℚ) ≤ 0 ∨ rest' = []
  · rw [if_pos (by simpa [hbtcH] using hc)]
    rfl
  · rw [if_neg (by simpa [hbtcH] using hc)]
    rfl

/-- Witness for C6 at a concrete two-node input with `BTC` pinned. -/
theorem claim6_witness :
    (cfgPinBTC.forceTopFullWidthSymbol = some "BTC" ∧
      (∃ n ∈ [(⟨tileBTC, 2⟩ : Node), ⟨tileETH, 1⟩], n.tile.symbol.toUpper = "BTC") ∧
      (∀ n ∈ [(⟨tileBTC, 2⟩ : Node), ⟨tileETH, 1⟩], 0 < n.weight) ∧ (0:ℚ) < 100) ∧
    (∃ b rest',
      extractPinned "BTC" (weightedItems [⟨tileBTC, 2⟩, ⟨tileETH, 1⟩] 100 100)
        = some (b, rest') ∧
      b.tile.symbol.toUpper = "BTC" ∧
      (cryptoRectsPx [⟨tileBTC, 2⟩, ⟨tileETH, 1⟩] 100 100 cfgPinBTC).head? =
        some { tile := b.tile, x := 0, y := 0, w := 100, h := min 100 (b.area / 100) }) :=
  ⟨⟨by with_unfolding_all decide, by with_unfolding_all decide,
    by with_unfolding_all decide, by norm_num⟩,
   claim6_pinned_top [⟨tileBTC, 2⟩, ⟨tileETH, 1⟩] 100 100 cfgPinBTC "BTC"
     (by with_unfolding_all decide) (by with_unfolding_all decide)
     (by with_unfolding_all decide) (by norm_num)⟩

set_option maxRecDepth 100000 in
/-- C1, counterexample. With 301 equal-weight tiles in a 1×301 container
(an input on which every strip is a singleton) the crypto loop's
300-iteration safeguard exits with one tile unplaced: the emitted areas sum
to 300, not to the container area 301 — the union does not cover the
container. -/
theorem claim1_cex :
    rectAreaSum (cryptoRectsPx nodes301 1 301 cfgPlain) ≠ 1 * 301 := by
  with_unfolding_all decide

set_option maxRecDepth 100000 in
/-- C10, counterexample. Same 301-tile input: the crypto layout emits 300
rects for 301 input nodes — one node is dropped when the iteration guard is
exhausted, so the output does not contain one rect per input node. -/
theorem claim10_cex :
    (computeCryptoTreemap nodes301 1 301 cfgPlain).length ≠ nodes301.length := by
  with_unfolding_all decide

end Heatmap
